import Mathlib

/-!
Verification of the `basic-rag` indexing and retrieval subsystem.

This file gives a shallow embedding, in Lean 4, of the core data model and
algorithms of the `basic-rag` Rust crate (chunking, incremental change
detection, hybrid lexical/semantic score fusion, query routing, BM25 search
entry points), and proves or refutes the specification claims about them.

Modelling conventions:
* Rust `f32` arithmetic is idealised as exact real arithmetic (`ℝ`); the
  floating-point formulas (`cosine_similarity`, `normalize_bm25_score`,
  score blending) are transcribed literally over `ℝ`.
* `HashMap` state (the hash-diff state, the embedding store) is modelled as
  association lists; claims proved about them only depend on key membership
  and lookups, never on iteration order.
* Time stamps, file-system I/O and logging are not modelled; writes to the
  Tantivy index are reified as an explicit list of `WriteOp` operations,
  and the persisted state files as explicit values threaded through.
* External hash functions (SHA-256 in `compute_checksum`, the std
  `DefaultHasher`) are modelled as abstract parameters or, for
  `calculate_chunk_hash`, by the exact stream of `Hash`-trait writes the
  code feeds into the hasher (the 64-bit `finish` digest is idealised as
  injective on that stream, which is the fingerprint contract the code
  relies on).
* Rust strings are modelled through their character lists; `char`
  predicates (`is_whitespace`, `to_lowercase`) use Lean's ASCII versions,
  which agree with Rust on every character the claims mention.
-/

namespace BasicRag

/-! ## Data model (`ingest.rs`, `embeddings.rs`) -/

/-- Rust `ingest::Chunk`: a chunk of text with source metadata. -/
structure Chunk where
  id : String
  text : String
  source : String
  heading : Option String
  position : ℕ
deriving DecidableEq, Repr

/-- Rust `embeddings::EnhancedChunk`: `Chunk` plus an optional embedding vector
(`f32` entries idealised as `ℝ`). -/
structure EnhancedChunk where
  id : String
  text : String
  source : String
  heading : Option String
  position : ℕ
  embedding : Option (List ℝ)

/-- Rust `impl From<Chunk> for EnhancedChunk`: the conversion always sets
`embedding` to `None` (the `Chunk` type carries no embedding). -/
def enhancedOfChunk (c : Chunk) : EnhancedChunk :=
  { id := c.id, text := c.text, source := c.source, heading := c.heading
    position := c.position, embedding := none }

/-! ## Whitespace splitting

Rust's `str::split_whitespace` (used by `create_chunks`,
`normalize_whitespace` and the query router's word count) is modelled by a
structurally recursive scanner over the character list, so that it reduces
on concrete inputs.  The accumulator `cur` carries the word being built, in
order. -/

/-- Scanner for `split_whitespace`: `cur` is the (reversed-free, in-order)
word currently being accumulated. -/
def splitWsAux : List Char → List Char → List (List Char)
  | [], cur => if cur.isEmpty then [] else [cur]
  | c :: rest, cur =>
    if c.isWhitespace then
      if cur.isEmpty then splitWsAux rest [] else cur :: splitWsAux rest []
    else splitWsAux rest (cur ++ [c])

/-- Rust `str::split_whitespace().collect::<Vec<_>>()`: the maximal runs of
non-whitespace characters of `s`, as strings. -/
def splitWhitespace (s : String) : List String :=
  (splitWsAux s.data []).map (fun w => String.mk w)

/-- Rust `ingest::normalize_whitespace`: split on whitespace and re-join with
single spaces (the final `trim` is a no-op after the join). -/
def normalize_whitespace (s : String) : String :=
  " ".intercalate (splitWhitespace s)

/-! ## Chunker (`ingest::create_chunks`) -/

/-- The advance step of the chunking loop: the source computes
`start + chunk_size - chunk_overlap` when `chunk_size > chunk_overlap` and
`start + 1` otherwise (the second branch is unreachable behind the
configuration check but is part of the source). -/
def chunkStep (chunk_size chunk_overlap : ℕ) : ℕ :=
  if chunk_overlap < chunk_size then chunk_size - chunk_overlap else 1

/-- The candidate windows the chunking loop slides over, before the
minimum-length filter: each iteration takes `tokens[start..min(start +
chunk_size, len)]` and stops after the window whose end reaches the token
count. -/
def windowsLoop (tokens : List String) (chunk_size chunk_overlap start : ℕ) :
    List (List String) :=
  if h : start < tokens.length then
    let win := (tokens.drop start).take chunk_size
    if tokens.length ≤ start + chunk_size then [win]
    else win :: windowsLoop tokens chunk_size chunk_overlap
      (start + chunkStep chunk_size chunk_overlap)
  else []
termination_by tokens.length - start
decreasing_by
  have h1 : 1 ≤ chunkStep chunk_size chunk_overlap := by
    unfold chunkStep; split <;> omega
  omega

/-- The chunk-emitting loop of `create_chunks`: windows of at least 10
tokens are emitted with the running `chunk_index` (used both in the id and
as `position`), which is incremented only on emission.  The source guards
the push and the index increment with one `if chunk_tokens.len() >= 10`
and then breaks when the window end reached the token count; here that
single guard is expanded into the two control paths (emit/no-emit), each
with the same break test. -/
def chunksLoop (tokens : List String) (source : String)
    (chunk_size chunk_overlap start chunk_index : ℕ) : List Chunk :=
  if h : start < tokens.length then
    if 10 ≤ ((tokens.drop start).take chunk_size).length then
      if tokens.length ≤ start + chunk_size then
        [{ id := source ++ ":chunk" ++ toString chunk_index
           text := " ".intercalate ((tokens.drop start).take chunk_size)
           source := source
           heading := none
           position := chunk_index }]
      else
        { id := source ++ ":chunk" ++ toString chunk_index
          text := " ".intercalate ((tokens.drop start).take chunk_size)
          source := source
          heading := none
          position := chunk_index } ::
          chunksLoop tokens source chunk_size chunk_overlap
            (start + chunkStep chunk_size chunk_overlap) (chunk_index + 1)
    else
      if tokens.length ≤ start + chunk_size then []
      else chunksLoop tokens source chunk_size chunk_overlap
        (start + chunkStep chunk_size chunk_overlap) chunk_index
  else []
termination_by tokens.length - start
decreasing_by
  all_goals
    have h1 : 1 ≤ chunkStep chunk_size chunk_overlap := by
      unfold chunkStep; split <;> omega
    omega

/-- Rust `ingest::create_chunks`: empty content short-circuits to `Ok(vec![])`
before the configuration check; `chunk_size <= chunk_overlap` is a
configuration error; otherwise the sliding-window loop runs over the
whitespace tokens. -/
def create_chunks (content source : String) (chunk_size chunk_overlap : ℕ) :
    Except String (List Chunk) :=
  if content = "" then .ok []
  else if chunk_size ≤ chunk_overlap then
    .error "chunk_size must be greater than chunk_overlap"
  else
    let tokens := splitWhitespace content
    if tokens.isEmpty then .ok []
    else .ok (chunksLoop tokens source chunk_size chunk_overlap 0 0)

/-! ## Content hash (`indexer::calculate_chunk_hash`)

The source feeds `text`, `source`, `heading` and `position` (and nothing
else — in particular not `id`) into a std `DefaultHasher` via the `Hash`
trait and formats `finish()`.  The model records the exact sequence of
`Hash`-trait writes; the 64-bit SipHash digest is idealised as injective on
that stream (the fingerprint contract the change tracker relies on). -/

/-- One `Hash`-trait write fed to the hasher: a string write
(`str::hash` = bytes plus `0xFF` terminator), an enum discriminant write
(from `Option::hash`) or an integer write (`usize::hash`). -/
inductive HashTok where
  | str (s : String)
  | disc (n : ℕ)
  | nat (n : ℕ)
deriving DecidableEq, Repr

/-- Rust `indexer::calculate_chunk_hash`: the stream of hasher writes produced by
`text.hash(); source.hash(); heading.hash(); position.hash()`.
`Option::<String>::hash` writes the discriminant (0 for `None`, 1 for
`Some`) followed by the payload string. -/
def calculate_chunk_hash (c : Chunk) : List HashTok :=
  [.str c.text, .str c.source] ++
    (match c.heading with
      | none => [.disc 0]
      | some h => [.disc 1, .str h]) ++
    [.nat c.position]

/-! ## Index build and incremental diff (`indexer::build_index`)

The persisted `IndexState.chunk_hashes` map is modelled as an association
list `String × List HashTok` (id → content hash); `schema_version` /
`last_updated` (wall-clock) are not modelled — the claims under proof only
concern the chunk-hash map.  Writes to the Tantivy index are reified as a
list of `WriteOp`. -/

/-- A write issued to the Tantivy index writer. -/
inductive WriteOp where
  | deleteTerm (id : String)
  | addDoc (c : Chunk)
  | commit
deriving DecidableEq, Repr

/-- The chunk-hash map of `IndexState`. -/
abbrev HashState := List (String × List HashTok)

/-- Rust `HashMap::insert`: replace the value at the key if present, else append
the binding. -/
def alInsert {β : Type} (k : String) (v : β) :
    List (String × β) → List (String × β)
  | [] => [(k, v)]
  | (k', v') :: rest =>
    if k' = k then (k, v) :: rest else (k', v') :: alInsert k v rest

/-- Rust `HashMap::remove` for one key. -/
def alErase {β : Type} (k : String) : List (String × β) → List (String × β)
  | [] => []
  | (k', v') :: rest =>
    if k' = k then rest else (k', v') :: alErase k rest

/-- Rust `HashMap::get`. -/
def alGet {β : Type} (k : String) : List (String × β) → Option β
  | [] => none
  | (k', v') :: rest => if k' = k then some v' else alGet k rest

/-- The first loop of `build_index`: walk the current chunks, classifying
each as unchanged (hash present and equal — skipped), modified (present,
different) or new (absent), inserting the fresh hash into the state as it
goes.  Returns the mutated state and the `new_chunks` / `modified_chunks`
vectors in source order. -/
def diffChunks (chunks : List Chunk) (st : HashState) :
    HashState × List Chunk × List Chunk :=
  match chunks with
  | [] => (st, [], [])
  | c :: rest =>
    match alGet c.id st with
    | some h =>
      if h = calculate_chunk_hash c then
        -- unchanged: skip
        diffChunks rest st
      else
        -- modified
        let (st', n, m) := diffChunks rest (alInsert c.id (calculate_chunk_hash c) st)
        (st', n, c :: m)
    | none =>
      -- new
      let (st', n, m) := diffChunks rest (alInsert c.id (calculate_chunk_hash c) st)
      (st', c :: n, m)

/-- Rust `indexer::build_index`, reduced to its state/write semantics: diff the
chunks against the persisted hash map, collect ids in the state that are
absent from the current chunk set as removed, purge them from the state;
if nothing changed, skip the entire write/commit step and leave the
persisted state untouched; otherwise issue deletes for removed ids, adds
for new chunks, delete+add for modified chunks, and a final commit, and
persist the updated state. -/
def build_index (state : HashState) (chunks : List Chunk) :
    List WriteOp × HashState :=
  let (st1, new_chunks, modified_chunks) := diffChunks chunks state
  let current_ids := chunks.map (·.id)
  let removed_chunk_ids := (st1.map (·.1)).filter (fun id => ¬ id ∈ current_ids)
  let st2 := removed_chunk_ids.foldl (fun s id => alErase id s) st1
  if new_chunks.isEmpty ∧ modified_chunks.isEmpty ∧ removed_chunk_ids.isEmpty then
    ([], state)
  else
    (removed_chunk_ids.map WriteOp.deleteTerm
      ++ new_chunks.map WriteOp.addDoc
      ++ modified_chunks.foldr
          (fun c acc => WriteOp.deleteTerm c.id :: WriteOp.addDoc c :: acc) []
      ++ [WriteOp.commit],
     st2)

/-! ## Ingestion (`ingest.rs`)

`ingest_docs` walks the docs directory, skips files whose SHA-256 checksum
matches the persisted `IngestState`, chunks the rest, and replaces the
persisted checksum map wholesale.  The walk result is modelled as a list of
`(relative path, content)` pairs in walk order; `compute_checksum`
(SHA-256) is an abstract parameter `checksum` — every theorem only uses
that it is a function.  The HTML branch of `process_file_content`
(`process_html`, regex-based) is outside this model: `process_file_content`
returns `none` for it, and `ingest_docs` propagates that as "not
modelled"; every theorem below uses only markdown/plain-text corpora. -/

/-- Leading and trailing whitespace removal (`str::trim`) on a character
list. -/
def trimChars (l : List Char) : List Char :=
  ((l.dropWhile (·.isWhitespace)).reverse.dropWhile (·.isWhitespace)).reverse

/-- First index at which `needle` occurs as a contiguous sublist
(`str::find` for a substring pattern; indices are character-based, which
coincides with Rust's byte indices on ASCII input). -/
def findSub (needle : List Char) : List Char → Option ℕ
  | [] => if needle.isEmpty then some 0 else none
  | c :: rest =>
    if needle.isPrefixOf (c :: rest) then some 0
    else (findSub needle rest).map (· + 1)

/-- Rust `ingest::strip_frontmatter`: drop a leading `--- … ---` YAML block. -/
def strip_frontmatter (content : String) : String :=
  if ['-', '-', '-'].isPrefixOf content.data then
    match findSub ['-', '-', '-'] (content.data.drop 3) with
    | some e =>
      if e + 6 < content.data.length then String.mk (content.data.drop (e + 6))
      else content
    | none => content
  else content

/-- Rust `str::lines`: split on newline, dropping one trailing empty segment
when the text ends in a newline, and stripping a trailing `\r` from each
line. -/
def linesOf (l : List Char) : List (List Char) :=
  let parts := l.splitOn '\n'
  let parts := if parts.getLast? = some [] then parts.dropLast else parts
  parts.map (fun w => if w.getLast? = some '\r' then w.dropLast else w)

/-- The per-line transformation of `ingest::process_markdown`: trim; strip
heading markers; blank code-fence lines; remove bold/italic and inline-code
markers. -/
def mdLine (line : List Char) : List Char :=
  let t := trimChars line
  if ['#'].isPrefixOf t then trimChars (t.dropWhile (· = '#'))
  else if ['`', '`', '`'].isPrefixOf t then []
  else
    ((String.mk t).replace "**" "" |>.replace "*" "" |>.replace "`" "").data

/-- Rust `ingest::process_markdown`: strip frontmatter, transform each line,
join with spaces, normalise whitespace. -/
def process_markdown (content : String) : String :=
  let c := strip_frontmatter content
  let processed :=
    " ".intercalate ((linesOf c.data).map (fun ln => String.mk (mdLine ln)))
  normalize_whitespace processed

/-- Rust `ingest::process_plain_text`. -/
def process_plain_text (content : String) : String :=
  normalize_whitespace content

/-- Rust `Path::extension`, lowercased: the segment after the last `.`, when
there is one (hidden-file and trailing-dot edge cases are not modelled; no
theorem uses them). -/
def extOf (path : String) : Option String :=
  match (path.data.splitOn '.').reverse with
  | [] => none
  | e :: rest => if rest.isEmpty then none else some (String.mk (e.map Char.toLower))

/-- Rust `ingest::is_supported_file`. -/
def is_supported_file (path : String) : Bool :=
  match extOf path with
  | some e => e ∈ ["md", "markdown", "html", "htm", "txt", "rst"]
  | none => false

/-- Rust `ingest::process_file_content`: dispatch on the lowercased extension.
`none` marks the HTML branch, which this model does not cover. -/
def process_file_content (content path : String) : Option String :=
  match extOf path with
  | some "md" => some (process_markdown content)
  | some "markdown" => some (process_markdown content)
  | some "html" => none
  | some "htm" => none
  | _ => some (process_plain_text content)

/-- The walk loop of `ingest::ingest_docs`: for each supported file,
record its checksum in `new_checksums`, skip chunking when the prior state
holds the same checksum, otherwise process and chunk it (a chunking error
aborts the whole ingest).  Returns the collected chunks and the new
checksum map; `none` means the corpus touched the unmodelled HTML branch. -/
def ingestLoop (checksum : String → String) (chunk_size chunk_overlap : ℕ)
    (prior : List (String × String)) :
    List (String × String) → List Chunk → List (String × String) →
    Option (Except String (List Chunk × List (String × String)))
  | [], all_chunks, new_checksums => some (.ok (all_chunks, new_checksums))
  | (path, content) :: rest, all_chunks, new_checksums =>
    if is_supported_file path then
      let cs := checksum content
      let new_checksums := alInsert path cs new_checksums
      if alGet path prior = some cs then
        ingestLoop checksum chunk_size chunk_overlap prior rest all_chunks
          new_checksums
      else
        match process_file_content content path with
        | none => none
        | some processed =>
          match create_chunks processed path chunk_size chunk_overlap with
          | .error e => some (.error e)
          | .ok chunks =>
            ingestLoop checksum chunk_size chunk_overlap prior rest
              (all_chunks ++ chunks) new_checksums
    else ingestLoop checksum chunk_size chunk_overlap prior rest all_chunks
      new_checksums

/-- Rust `ingest::ingest_docs`: run the walk loop from empty accumulators; the
persisted `IngestState.file_checksums` is replaced by the freshly built
map. -/
def ingest_docs (checksum : String → String) (chunk_size chunk_overlap : ℕ)
    (files : List (String × String)) (fileChecksums : List (String × String)) :
    Option (Except String (List Chunk × List (String × String))) :=
  ingestLoop checksum chunk_size chunk_overlap fileChecksums files [] []

/-- The `init` command's indexing pipeline (`main.rs`): ingest (with its
checksum-based skip), then `build_index` over whatever chunks the ingest
returned.  Results: the new persisted file-checksum map, the index writes
issued, and the new persisted chunk-hash map. -/
def run_init (checksum : String → String) (chunk_size chunk_overlap : ℕ)
    (files : List (String × String))
    (fileChecksums : List (String × String)) (indexState : HashState) :
    Option (Except String (List (String × String) × List WriteOp × HashState)) :=
  match ingest_docs checksum chunk_size chunk_overlap files fileChecksums with
  | none => none
  | some (.error e) => some (.error e)
  | some (.ok (chunks, newChecksums)) =>
    let (ops, st') := build_index indexState chunks
    some (.ok (newChecksums, ops, st'))

/-! ## BM25 retrieval entry point (`retriever.rs`)

`bm25_search` is modelled against an abstract Tantivy index: `parse` is
the query parser (`none` = parse failure) and `search` returns the ranked
hits, each `Option Chunk` standing for a hit whose stored fields may fail
to hydrate (such hits are skipped, not fatal).  A `BmTrace` records
whether a ranked search was executed and whether the sanitize fallback was
applied. -/

/-- An abstract parsed-query type plus the two index operations
`bm25_search` uses. -/
structure BmIndex (Q : Type) where
  parse : String → Option Q
  search : Q → ℕ → List (Option Chunk)

/-- Observable effects of one `bm25_search` call. -/
structure BmTrace where
  executedSearch : Bool
  usedSanitize : Bool
deriving DecidableEq, Repr

/-- Rust `query.trim().is_empty()`: the trimmed string is empty iff every
character is whitespace. -/
def trimmedEmpty (q : String) : Bool :=
  q.data.all (·.isWhitespace)

/-- Rust `retriever::sanitize_query`: strip brackets, parens, tilde, caret and
quotes, collapse whitespace, and fall back to the wildcard `*` when
nothing is left.  (`\x7b`/`\x7d` are the curly braces, `Char.ofNat 39` the
single quote.) -/
def sanitize_query (query : String) : String :=
  let s := query.replace "[" "" |>.replace "]" ""
    |>.replace "\x7b" "" |>.replace "\x7d" ""
    |>.replace "(" "" |>.replace ")" ""
    |>.replace "~" "" |>.replace "^" ""
  let s := s.replace "\"" ""
  let s := s.replace (String.mk [Char.ofNat 39]) ""
  let s := " ".intercalate (splitWhitespace s)
  if trimmedEmpty s then "*" else s

/-- Rust `retriever::bm25_search`: empty/whitespace queries return `Ok(vec![])`
immediately; otherwise parse, falling back once to the sanitized query on
parse failure; execute the ranked search and keep the hits that hydrate. -/
def bm25_search {Q : Type} (idx : BmIndex Q) (query : String) (top_k : ℕ) :
    Except String (List Chunk) × BmTrace :=
  if trimmedEmpty query then (.ok [], ⟨false, false⟩)
  else
    match idx.parse query with
    | some pq => (.ok ((idx.search pq top_k).filterMap id), ⟨true, false⟩)
    | none =>
      let sq := sanitize_query query
      match idx.parse sq with
      | some pq => (.ok ((idx.search pq top_k).filterMap id), ⟨true, true⟩)
      | none => (.error ("Failed to parse sanitized query " ++ sq), ⟨false, true⟩)

/-! ## Cosine similarity and score normalisation (`embeddings.rs`) -/

/-- Sum of pairwise products of two equal-length vectors
(`a.iter().zip(b).map(|(x,y)| x*y).sum()`). -/
def dotList (a b : List ℝ) : ℝ :=
  ((a.zip b).map (fun p => p.1 * p.2)).sum

/-- Sum of squares of a vector's entries. -/
def sumSq (a : List ℝ) : ℝ :=
  (a.map (fun x => x * x)).sum

/-- Rust `embeddings::cosine_similarity` over `ℝ`: mismatched lengths return
`0.0`; a zero norm on either side returns `0.0`; otherwise the normalised
dot product. -/
noncomputable def cosine_similarity (a b : List ℝ) : ℝ :=
  if a.length ≠ b.length then 0
  else
    let dot_product := dotList a b
    let norm_a := Real.sqrt (sumSq a)
    let norm_b := Real.sqrt (sumSq b)
    if norm_a = 0 ∨ norm_b = 0 then 0 else dot_product / (norm_a * norm_b)

/-- Rust `embeddings::normalize_bm25_score`: logistic squashing
`1 / (1 + exp(-score/5))`. -/
noncomputable def normalize_bm25_score (score : ℝ) : ℝ :=
  1 / (1 + Real.exp (-score / 5))

/-! ## Query router (`embeddings::analyze_query`)

Pure string analysis.  `str::to_lowercase` is modelled character-wise with
Lean's ASCII `Char.toLower` (Unicode special lowercasings do not affect
any keyword or character the router tests). -/

/-- Rust `str::to_lowercase`, character-wise. -/
def toLowerStr (s : String) : String :=
  String.mk (s.data.map Char.toLower)

/-- Substring membership scanner (`str::contains` with a string pattern). -/
def hasSubAux (needle : List Char) : List Char → Bool
  | [] => needle.isEmpty
  | c :: rest => needle.isPrefixOf (c :: rest) || hasSubAux needle rest

/-- Rust `str::contains` with a string pattern. -/
def strContains (hay needle : String) : Bool :=
  hasSubAux needle.data hay.data

/-- Rust `str::starts_with` with a string pattern. -/
def strStartsWith (hay needle : String) : Bool :=
  needle.data.isPrefixOf hay.data

/-- Rust `query.split_whitespace().count()`. -/
def wordCount (q : String) : ℕ :=
  (splitWhitespace q).length

/-- Rust `embeddings::SearchStrategy` (the `alpha` payloads are the exact
decimal literals of the source, as rationals). -/
inductive SearchStrategy where
  | bm25Heavy (alpha : ℚ)
  | balanced (alpha : ℚ)
  | semanticHeavy (alpha : ℚ)
  | pureBM25
  | pureSemantic
deriving DecidableEq, Repr

/-- The lexical weight a strategy carries (`PureBM25`/`PureSemantic` are
never produced by `analyze_query`; they bypass fusion entirely and their
values here are the degenerate weights 1 and 0). -/
def SearchStrategy.alphaOf : SearchStrategy → ℚ
  | .bm25Heavy a => a
  | .balanced a => a
  | .semanticHeavy a => a
  | .pureBM25 => 1
  | .pureSemantic => 0

/-- Rust `embeddings::analyze_query`: first-match-wins routing on the raw query
string. -/
def analyze_query (query : String) : SearchStrategy :=
  let query_lower := toLowerStr query
  let word_count := wordCount query
  if strContains query_lower "::" || strContains query_lower "api" ||
      strContains query_lower "function" || strContains query_lower "struct" ||
      strContains query_lower "impl" ||
      query.data.any (fun c => c == '(' || c == ')' || c == '<' || c == '>') then
    .bm25Heavy 0.8
  else if strStartsWith query_lower "how" || strStartsWith query_lower "what" ||
      strStartsWith query_lower "why" || strContains query_lower "concept" ||
      strContains query_lower "explain" || strContains query_lower "tutorial" then
    .semanticHeavy 0.3
  else if word_count ≤ 2 then
    .semanticHeavy 0.4
  else if 6 < word_count then
    .balanced 0.5
  else
    .balanced 0.6

/-- The routing table exactly as the specification claim states it: a
case-insensitive, first-match-wins decision list yielding the lexical
weight. -/
def routerSpecAlpha (query : String) : ℚ :=
  let ql := toLowerStr query
  if strContains ql "::" || strContains ql "api" || strContains ql "function" ||
      strContains ql "struct" || strContains ql "impl" ||
      query.data.any (fun c => c == '(' || c == ')' || c == '<' || c == '>') then
    0.8
  else if strStartsWith ql "how" || strStartsWith ql "what" ||
      strStartsWith ql "why" || strContains ql "concept" ||
      strContains ql "explain" || strContains ql "tutorial" then
    0.3
  else if wordCount query ≤ 2 then 0.4
  else if 6 < wordCount query then 0.5
  else 0.6

/-! ## Embedding store and fusion engine (`embeddings.rs`) -/

/-- Rust `embeddings::SearchResult` (the human-readable `explanation` string, a
`format!` of the scores, is not modelled). -/
structure SearchResult where
  chunk : EnhancedChunk
  bm25_score : ℝ
  semantic_score : ℝ
  combined_score : ℝ

/-- Rust `embeddings::EmbeddingStore`: the two persisted maps, as association
lists (`HashMap` iteration order is arbitrary; the theorems below never
depend on this order). -/
structure EmbeddingStore where
  embeddings : List (String × List ℝ)
  chunks : List (String × EnhancedChunk)

/-- The comparator of `sort_by(|a,b| b.score.partial_cmp(&a.score))`: a
stable descending sort.  Rust's stable `sort_by` and Mathlib's
`insertionSort` with this relation produce the same list (a stable sort's
output is uniquely determined by a total preorder; scores here are never
NaN). -/
noncomputable def sortPairsDesc (l : List (EnhancedChunk × ℝ)) :
    List (EnhancedChunk × ℝ) :=
  List.insertionSort (fun a b => b.2 ≤ a.2) l

/-- Rust `EmbeddingStore::similarity_search`: score every stored embedding
against the query embedding, keep those whose chunk record exists, sort by
score descending (stably), truncate to `top_k`. -/
noncomputable def similarity_search (store : EmbeddingStore)
    (query_embedding : List ℝ) (top_k : ℕ) : List (EnhancedChunk × ℝ) :=
  let scored_chunks := store.embeddings.filterMap (fun p =>
    let score := cosine_similarity query_embedding p.2
    match alGet p.1 store.chunks with
    | some chunk => some (chunk, score)
    | none => none)
  (sortPairsDesc scored_chunks).take top_k

/-- Stable descending sort on fused results, as in
`hybrid_results.sort_by(|a,b| b.combined_score.partial_cmp(&a.combined_score))`. -/
noncomputable def sortResultsDesc (l : List SearchResult) : List SearchResult :=
  List.insertionSort (fun a b => b.combined_score ≤ a.combined_score) l

/-- Rust `HybridSearcher::hybrid_search_with_alpha`.  `bm` stands for
`retriever::bm25_search` against the opened index (it returns chunks only
— no scores — hence the hard-coded placeholder `bm25_score = 1.0` of the
source); `encode` is the external embedding capability. -/
noncomputable def hybrid_search_with_alpha (bm : String → ℕ → List Chunk)
    (encode : String → List ℝ) (store : EmbeddingStore)
    (query : String) (top_k : ℕ) (alpha : ℝ) : List SearchResult :=
  let bm25_candidates := bm query (top_k * 3)
  let query_embedding := encode query
  let hybrid_results := bm25_candidates.map (fun chunk =>
    let bm25_score : ℝ := 1
    let enhanced_chunk := enhancedOfChunk chunk
    let semantic_score : ℝ :=
      match enhanced_chunk.embedding with
      | some embedding => cosine_similarity query_embedding embedding
      | none => 0
    let norm_bm25 := normalize_bm25_score bm25_score
    let norm_semantic := (semantic_score + 1) / 2
    { chunk := enhanced_chunk
      bm25_score := bm25_score
      semantic_score := semantic_score
      combined_score := alpha * norm_bm25 + (1 - alpha) * norm_semantic })
  let semantic_candidates := similarity_search store query_embedding top_k
  let merged := semantic_candidates.foldl (fun acc p =>
    if acc.any (fun r => r.chunk.id == p.1.id) then acc
    else acc ++ [{ chunk := p.1
                   bm25_score := 0
                   semantic_score := p.2
                   combined_score := (1 - alpha) * ((p.2 + 1) / 2) }]) hybrid_results
  (sortResultsDesc merged).take top_k

/-- The fusion procedure exactly as claim C1 states it: the semantic score
of a lexical candidate is the cosine similarity between the query embedding
and the embedding **stored for that candidate's id** (0 when none is
stored); separately retrieved top-k semantic candidates not already present
by id from the lexical pass get `(1-α)·normSem`; merge, sort by combined
descending, truncate to k.  (The lexical relevance score entering the
sigmoid is the one the search call yields, which in this code base is the
fixed placeholder 1.0 — flagged separately in the specification's design
notes and not contested by this claim.) -/
noncomputable def fusionClaimed (bm : String → ℕ → List Chunk)
    (encode : String → List ℝ) (store : EmbeddingStore)
    (query : String) (top_k : ℕ) (alpha : ℝ) : List SearchResult :=
  let lex := bm query (top_k * 3)
  let qe := encode query
  let lexIds := lex.map (·.id)
  let lexResults := lex.map (fun chunk =>
    let semantic_score : ℝ :=
      match alGet chunk.id store.embeddings with
      | some emb => cosine_similarity qe emb
      | none => 0
    let norm_lex := normalize_bm25_score 1
    let norm_sem := (semantic_score + 1) / 2
    { chunk := enhancedOfChunk chunk
      bm25_score := 1
      semantic_score := semantic_score
      combined_score := alpha * norm_lex + (1 - alpha) * norm_sem })
  let semResults := ((similarity_search store qe top_k).filter
      (fun p => ! lexIds.any (fun i => i == p.1.id))).map (fun p =>
    { chunk := p.1
      bm25_score := 0
      semantic_score := p.2
      combined_score := (1 - alpha) * ((p.2 + 1) / 2) })
  (sortResultsDesc (lexResults ++ semResults)).take top_k

/-- Claim C1 amended to what the code does: identical to `fusionClaimed`
except that a lexical candidate's semantic score is always 0 — the
candidate chunk returned by the lexical search carries no embedding and
the store is never consulted for it, so the "none stored" fallback always
applies. -/
noncomputable def fusionAmended (bm : String → ℕ → List Chunk)
    (encode : String → List ℝ) (store : EmbeddingStore)
    (query : String) (top_k : ℕ) (alpha : ℝ) : List SearchResult :=
  let lex := bm query (top_k * 3)
  let qe := encode query
  let lexIds := lex.map (·.id)
  let lexResults := lex.map (fun chunk =>
    let semantic_score : ℝ := 0
    let norm_lex := normalize_bm25_score 1
    let norm_sem := (semantic_score + 1) / 2
    { chunk := enhancedOfChunk chunk
      bm25_score := 1
      semantic_score := semantic_score
      combined_score := alpha * norm_lex + (1 - alpha) * norm_sem })
  let semResults := ((similarity_search store qe top_k).filter
      (fun p => ! lexIds.any (fun i => i == p.1.id))).map (fun p =>
    { chunk := p.1
      bm25_score := 0
      semantic_score := p.2
      combined_score := (1 - alpha) * ((p.2 + 1) / 2) })
  (sortResultsDesc (lexResults ++ semResults)).take top_k

/-! ## Helper lemmas -/

theorem char_eq_iff_toNat (d e : Char) : (d = e) ↔ d.toNat = e.toNat := by
  constructor
  · rintro rfl; rfl
  · intro h; exact Char.ext (UInt32.ext h)

theorem charOfNat_toNat (n : ℕ) (h1 : 97 ≤ n) (h2 : n ≤ 122) :
    (Char.ofNat n).toNat = n := by
  have hv : n.isValidChar := Or.inl (by omega)
  simp only [Char.ofNat, dif_pos hv]
  simp [Char.ofNatAux, Char.toNat, UInt32.toNat, BitVec.toNat_ofNatLt]

theorem toLower_idem (c : Char) : (Char.toLower c).toLower = Char.toLower c := by
  unfold Char.toLower
  by_cases h : c.toNat ≥ 65 ∧ c.toNat ≤ 90
  · rw [if_pos h, charOfNat_toNat (c.toNat + 32) (by omega) (by omega),
      if_neg (by omega)]
  · rw [if_neg h, if_neg h]

theorem isWhitespace_toNat (d : Char) : d.isWhitespace =
    (decide (d.toNat = 32) || decide (d.toNat = 9) || decide (d.toNat = 13) ||
      decide (d.toNat = 10)) := by
  simp [Char.isWhitespace, char_eq_iff_toNat]

theorem toLower_isWhitespace (c : Char) :
    (Char.toLower c).isWhitespace = c.isWhitespace := by
  unfold Char.toLower
  by_cases h : c.toNat ≥ 65 ∧ c.toNat ≤ 90
  · rw [if_pos h]
    rw [isWhitespace_toNat, isWhitespace_toNat c]
    rw [charOfNat_toNat (c.toNat + 32) (by omega) (by omega)]
    have h1 : (decide (c.toNat + 32 = 32) || decide (c.toNat + 32 = 9) ||
        decide (c.toNat + 32 = 13) || decide (c.toNat + 32 = 10)) = false := by
      simp only [Bool.or_eq_false_iff, decide_eq_false_iff_not]
      omega
    have h2 : (decide (c.toNat = 32) || decide (c.toNat = 9) ||
        decide (c.toNat = 13) || decide (c.toNat = 10)) = false := by
      simp only [Bool.or_eq_false_iff, decide_eq_false_iff_not]
      omega
    rw [h1, h2]
  · rw [if_neg h]

theorem toLower_eq_low (c p : Char) (hp : p.toNat < 65) :
    (Char.toLower c = p) ↔ c = p := by
  unfold Char.toLower
  by_cases h : c.toNat ≥ 65 ∧ c.toNat ≤ 90
  · rw [if_pos h]
    rw [char_eq_iff_toNat, char_eq_iff_toNat c p]
    rw [charOfNat_toNat (c.toNat + 32) (by omega) (by omega)]
    omega
  · rw [if_neg h]

theorem sumSq_nonneg (a : List ℝ) : 0 ≤ sumSq a := by
  apply List.sum_nonneg
  intro x hx
  obtain ⟨y, _, rfl⟩ := List.mem_map.mp hx
  exact mul_self_nonneg y

theorem dotList_self (a : List ℝ) : dotList a a = sumSq a := by
  induction a with
  | nil => rfl
  | cons x l ih =>
    simp only [dotList, sumSq, List.zip_cons_cons, List.map_cons, List.sum_cons]
    rw [show ((l.zip l).map fun p => p.1 * p.2).sum = dotList l l from rfl, ih]
    rfl

/-! ## Claim theorems -/

/-- C7 (counterexample): with empty content and `chunk_overlap = 2 ≥ 1 =
chunk_size`, `create_chunks` succeeds with no chunks instead of failing
with a configuration error — the empty-content short-circuit precedes the
configuration check. -/
theorem c7_counterexample : create_chunks "" "s" 1 2 = .ok [] := rfl

/-- C7 (amended): for every **non-empty** content, a configuration with
`chunk_overlap ≥ chunk_size` fails with the configuration error (and hence
produces no chunks); empty content instead returns `Ok([])` without
validating the configuration. -/
theorem c7_theorem (content source : String) (chunk_size chunk_overlap : ℕ)
    (hne : content ≠ "") (hcfg : chunk_size ≤ chunk_overlap) :
    create_chunks content source chunk_size chunk_overlap =
      .error "chunk_size must be greater than chunk_overlap" := by
  unfold create_chunks
  rw [if_neg hne, if_pos hcfg]

/-- C7 (witness): the amended theorem at content `"x"`,
`chunk_size = chunk_overlap = 1`. -/
theorem c7_witness : create_chunks "x" "s" 1 1 =
    .error "chunk_size must be greater than chunk_overlap" :=
  c7_theorem "x" "s" 1 1 (by decide) (by decide)

/-- C8: the content hash is a function of exactly the four fields `(text,
source, heading, position)` — two chunks hash identically iff they agree
on all four (in particular the `id` is not an input, and changing any
single field changes the hash). -/
theorem c8_theorem (c1 c2 : Chunk) :
    calculate_chunk_hash c1 = calculate_chunk_hash c2 ↔
      (c1.text = c2.text ∧ c1.source = c2.source ∧ c1.heading = c2.heading ∧
        c1.position = c2.position) := by
  obtain ⟨i1, t1, s1, h1, p1⟩ := c1
  obtain ⟨i2, t2, s2, h2, p2⟩ := c2
  cases h1 <;> cases h2 <;> simp [calculate_chunk_hash]

/-- C9 (counterexample): the zero vector compared with itself yields
cosine similarity 0.0, which is not within `1e-6` of 1.0 — refuting the
claim's unrestricted "every vector compared with itself returns 1.0". -/
theorem c9_counterexample : cosine_similarity [(0 : ℝ)] [0] = 0 ∧
    ¬ |cosine_similarity [(0 : ℝ)] [0] - 1| ≤ 1 / 1000000 := by
  have h : cosine_similarity [(0 : ℝ)] [0] = 0 := by
    unfold cosine_similarity
    rw [if_neg (by simp)]
    rw [if_pos]
    left
    simp [sumSq]
  refine ⟨h, ?_⟩
  rw [h]
  norm_num

/-- C9 (amended): cosine similarity returns 0.0 for every pair of vectors
of different lengths and whenever either vector has zero norm (a defined
fallback, never an error); for orthogonal vectors (zero dot product) it
returns 0.0; and for every vector of **nonzero norm** compared with itself
it returns exactly 1.0 (hence within 1e-6). -/
theorem c9_theorem (a b : List ℝ) :
    (a.length ≠ b.length → cosine_similarity a b = 0) ∧
    (Real.sqrt (sumSq a) = 0 ∨ Real.sqrt (sumSq b) = 0 →
      cosine_similarity a b = 0) ∧
    (dotList a b = 0 → cosine_similarity a b = 0) ∧
    (sumSq a ≠ 0 → cosine_similarity a a = 1) := by
  refine ⟨?_, ?_, ?_, ?_⟩
  · intro h
    unfold cosine_similarity
    rw [if_pos h]
  · intro h
    unfold cosine_similarity
    by_cases hl : a.length ≠ b.length
    · rw [if_pos hl]
    · rw [if_neg hl, if_pos h]
  · intro h
    unfold cosine_similarity
    by_cases hl : a.length ≠ b.length
    · rw [if_pos hl]
    · rw [if_neg hl]
      by_cases hz : Real.sqrt (sumSq a) = 0 ∨ Real.sqrt (sumSq b) = 0
      · rw [if_pos hz]
      · rw [if_neg hz, h, zero_div]
  · intro h
    have hpos : 0 < sumSq a := lt_of_le_of_ne (sumSq_nonneg a) (Ne.symm h)
    have hs : Real.sqrt (sumSq a) ≠ 0 := by
      rw [Ne, Real.sqrt_eq_zero']
      exact not_le_of_lt hpos
    unfold cosine_similarity
    rw [if_neg (by simp)]
    rw [if_neg (by simp [hs])]
    rw [dotList_self, Real.mul_self_sqrt (le_of_lt hpos), div_self h]

/-- C9 (witness): the amended self-similarity clause at the concrete
nonzero vector `[1, 0]`. -/
theorem c9_witness : cosine_similarity [(1 : ℝ), 0] [1, 0] = 1 :=
  (c9_theorem [(1 : ℝ), 0] [1, 0]).2.2.2 (by norm_num [sumSq])

/-- C10: a query that is empty or consists only of whitespace makes
`bm25_search` return `Ok(vec![])` immediately: no ranked search is
executed against the index and the sanitize-and-wildcard fallback is never
applied — for any index whatsoever. -/
theorem c10_theorem {Q : Type} (idx : BmIndex Q) (query : String) (top_k : ℕ)
    (h : query.data.all (·.isWhitespace) = true) :
    bm25_search idx query top_k = (.ok [], ⟨false, false⟩) := by
  unfold bm25_search
  rw [if_pos]
  exact h

/-- C10 (witness): the theorem at the two-space query against a trivial
index. -/
theorem c10_witness :
    bm25_search (⟨fun _ => none, fun _ _ => []⟩ : BmIndex Unit) "  " 5 =
      (.ok [], ⟨false, false⟩) :=
  c10_theorem _ "  " 5 (by decide)

theorem toLowerStr_idem (s : String) : toLowerStr (toLowerStr s) = toLowerStr s := by
  unfold toLowerStr
  apply congrArg String.mk
  show (s.data.map Char.toLower).map Char.toLower = s.data.map Char.toLower
  rw [List.map_map]
  exact List.map_congr_left (fun c _ => toLower_idem c)

theorem splitWsAux_map_length (l : List Char) : ∀ cur : List Char,
    (splitWsAux (l.map Char.toLower) (cur.map Char.toLower)).length =
      (splitWsAux l cur).length := by
  induction l with
  | nil =>
    intro cur
    cases cur <;> simp [splitWsAux]
  | cons c rest ih =>
    intro cur
    show (splitWsAux (Char.toLower c :: rest.map Char.toLower)
        (cur.map Char.toLower)).length = _
    unfold splitWsAux
    rw [toLower_isWhitespace]
    by_cases hw : c.isWhitespace
    · rw [if_pos hw, if_pos hw]
      by_cases hc : cur.isEmpty
      · rw [if_pos (by simpa [List.isEmpty_iff] using hc)]
        rw [if_pos hc]
        exact ih []
      · rw [if_neg (by simpa [List.isEmpty_iff] using hc)]
        rw [if_neg hc]
        simpa using ih []
    · rw [if_neg hw, if_neg hw]
      rw [show cur.map Char.toLower ++ [Char.toLower c] =
        (cur ++ [c]).map Char.toLower by simp]
      exact ih (cur ++ [c])

theorem wordCount_toLower (q : String) : wordCount (toLowerStr q) = wordCount q := by
  unfold wordCount splitWhitespace toLowerStr
  rw [List.length_map, List.length_map]
  have h := splitWsAux_map_length q.data []
  simpa using h

theorem toLower_beq_low (c p : Char) (hp : p.toNat < 65) :
    (Char.toLower c == p) = (c == p) := by
  by_cases hc : c = p
  · subst hc
    rw [beq_self_eq_true, (toLower_eq_low c c hp).mpr rfl, beq_self_eq_true]
  · have hne : Char.toLower c ≠ p := fun h => hc ((toLower_eq_low c p hp).mp h)
    rw [beq_eq_false_iff_ne.mpr hne, beq_eq_false_iff_ne.mpr hc]

theorem any_paren_toLower (q : String) :
    (toLowerStr q).data.any (fun c => c == '(' || c == ')' || c == '<' || c == '>') =
      q.data.any (fun c => c == '(' || c == ')' || c == '<' || c == '>') := by
  show (q.data.map Char.toLower).any _ = _
  rw [List.any_map]
  apply congrArg
  funext c
  show (Char.toLower c == '(' || Char.toLower c == ')' || Char.toLower c == '<' ||
      Char.toLower c == '>') = (c == '(' || c == ')' || c == '<' || c == '>')
  rw [toLower_beq_low c '(' (by decide), toLower_beq_low c ')' (by decide),
    toLower_beq_low c '<' (by decide), toLower_beq_low c '>' (by decide)]

/-- C4: the query router is a pure, deterministic function of the raw
query string implementing exactly the claimed first-match-wins table of
lexical weights (0.8 / 0.3 / 0.4 / 0.5 / 0.6), and it is case-insensitive:
lowercasing the query first does not change the routing. -/
theorem c4_theorem (query : String) :
    (analyze_query query).alphaOf = routerSpecAlpha query ∧
    analyze_query (toLowerStr query) = analyze_query query := by
  constructor
  · simp only [analyze_query, routerSpecAlpha]
    split_ifs <;> rfl
  · simp only [analyze_query]
    rw [toLowerStr_idem, wordCount_toLower, any_paren_toLower]

theorem chunkStep_of_lt (S O : ℕ) (h : O < S) : chunkStep S O = S - O := by
  unfold chunkStep
  rw [if_pos h]

theorem windowsLoop_length (tokens : List String) (S O : ℕ) (hSO : O < S) :
    ∀ start, start < tokens.length →
      (windowsLoop tokens S O start).length =
        max 1 ((tokens.length - start - O + (S - O) - 1) / (S - O)) := by
  have hd : 0 < S - O := by omega
  intro start
  induction start using windowsLoop.induct tokens S O with
  | case1 x hx hstop =>
    intro _
    rw [windowsLoop.eq_def]
    rw [dif_pos hx]
    simp only []
    rw [if_pos hstop]
    have hlt : tokens.length - x - O + (S - O) - 1 < 2 * (S - O) := by omega
    have hle : (tokens.length - x - O + (S - O) - 1) / (S - O) ≤ 1 := by
      have := (Nat.div_lt_iff_lt_mul hd).mpr hlt
      omega
    simp only [List.length_cons, List.length_nil]
    omega
  | case2 x hx hstop ih =>
    intro _
    rw [windowsLoop.eq_def]
    rw [dif_pos hx]
    simp only []
    rw [if_neg hstop]
    rw [chunkStep_of_lt S O hSO] at ih ⊢
    have hxd : x + (S - O) < tokens.length := by omega
    rw [List.length_cons, ih hxd]
    -- abbreviate A := tokens.length - x - O; here A ≥ (S-O)+1
    have hA : (S - O) + 1 ≤ tokens.length - x - O := by omega
    have e1 : tokens.length - (x + (S - O)) - O + (S - O) - 1 =
        tokens.length - x - O - 1 := by omega
    rw [e1]
    have h1 : 1 ≤ (tokens.length - x - O - 1) / (S - O) := by
      apply (Nat.le_div_iff_mul_le hd).mpr
      omega
    have h2 : 1 ≤ (tokens.length - x - O + (S - O) - 1) / (S - O) := by
      apply (Nat.le_div_iff_mul_le hd).mpr
      omega
    rw [Nat.max_eq_right h1, Nat.max_eq_right h2]
    have e2 : tokens.length - x - O + (S - O) - 1 =
        tokens.length - x - O - 1 + (S - O) := by omega
    rw [e2, Nat.add_div_right _ hd]
  | case3 x hx =>
    intro hlt
    exact absurd hlt hx

theorem chunksLoop_positions (tokens : List String) (source : String) (S O : ℕ)
    (start idx : ℕ) :
    (chunksLoop tokens source S O start idx).map (·.position) =
      List.range' idx (chunksLoop tokens source S O start idx).length := by
  induction start, idx using chunksLoop.induct tokens source S O with
  | case1 x idx hx hw hstop =>
    rw [chunksLoop.eq_def, dif_pos hx, if_pos hw, if_pos hstop]
    simp [List.range'_succ]
  | case2 x idx hx hw hstop ih =>
    rw [chunksLoop.eq_def, dif_pos hx, if_pos hw, if_neg hstop]
    simp only [List.map_cons, List.length_cons]
    rw [ih, List.range'_succ]
  | case3 x idx hx hw hstop =>
    rw [chunksLoop.eq_def, dif_pos hx, if_neg hw, if_pos hstop]
    simp
  | case4 x idx hx hw hstop ih =>
    rw [chunksLoop.eq_def, dif_pos hx, if_neg hw, if_neg hstop]
    exact ih
  | case5 x idx hx =>
    rw [chunksLoop.eq_def, dif_neg hx]
    simp

theorem chunksLoop_texts (tokens : List String) (source : String) (S O : ℕ)
    (start idx : ℕ) :
    (chunksLoop tokens source S O start idx).map (·.text) =
      ((windowsLoop tokens S O start).filter (fun w => 10 ≤ w.length)).map
        (fun w => " ".intercalate w) := by
  induction start, idx using chunksLoop.induct tokens source S O with
  | case1 x idx hx hw hstop =>
    rw [chunksLoop.eq_def, dif_pos hx, if_pos hw, if_pos hstop,
      windowsLoop.eq_def]
    simp only [dif_pos hx]
    rw [if_pos hstop, List.filter_cons_of_pos (by simpa using hw)]
    simp
  | case2 x idx hx hw hstop ih =>
    rw [chunksLoop.eq_def, dif_pos hx, if_pos hw, if_neg hstop,
      windowsLoop.eq_def]
    simp only [dif_pos hx]
    rw [if_neg hstop, List.filter_cons_of_pos (by simpa using hw)]
    simp only [List.map_cons]
    rw [ih]
  | case3 x idx hx hw hstop =>
    rw [chunksLoop.eq_def, dif_pos hx, if_neg hw, if_pos hstop,
      windowsLoop.eq_def]
    simp only [dif_pos hx]
    rw [if_pos hstop, List.filter_cons_of_neg (by simpa using hw)]
    simp
  | case4 x idx hx hw hstop ih =>
    rw [chunksLoop.eq_def, dif_pos hx, if_neg hw, if_neg hstop,
      windowsLoop.eq_def]
    simp only [dif_pos hx]
    rw [if_neg hstop, List.filter_cons_of_neg (by simpa using hw)]
    exact ih
  | case5 x idx hx =>
    rw [chunksLoop.eq_def, dif_neg hx, windowsLoop.eq_def, dif_neg hx]
    simp

theorem splitWhitespace_empty : splitWhitespace "" = [] := rfl

/-- C6 (counterexample): for content of a single token with
`chunk_size = 3`, `chunk_overlap = 2` (so `N = 1 ≤ O = 2 < S = 3`), the
chunker produces exactly one candidate window, while the claimed formula
`ceil((N−O)/(S−O))` yields 0 over naturals and −1 as a rational ceiling —
not 1. -/
theorem c6_counterexample :
    (windowsLoop (splitWhitespace "a") 3 2 0).length = 1 ∧
    ((splitWhitespace "a").length - 2 + (3 - 2) - 1) / (3 - 2) = 0 ∧
    ⌈(((splitWhitespace "a").length : ℚ) - 2) / ((3 : ℚ) - 2)⌉ = (-1 : ℤ) := by
  have hs : splitWhitespace "a" = ["a"] := by decide
  refine ⟨?_, ?_, ?_⟩
  · rw [hs, windowsLoop.eq_def]
    norm_num
  · rw [hs]
    decide
  · rw [hs]
    have h : ((["a"].length : ℚ) - 2) / ((3 : ℚ) - 2) = ((-1 : ℤ) : ℚ) := by
      norm_num
    rw [h, Int.ceil_intCast]

/-- C6 (amended): for content of `N > 0` whitespace tokens with
`chunk_overlap = O < S = chunk_size`, the chunker succeeds; it produces
exactly `ceil((N−O)/(S−O))` candidate windows **when `N > O`** and exactly
one candidate window when `N ≤ O`; every window shorter than 10 tokens is
discarded without consuming a position slot, so the emitted chunks carry
consecutive positions `0, 1, 2, …` and their texts are precisely the
joined windows of at least 10 tokens, in order. -/
theorem c6_theorem (content source : String) (S O : ℕ) (hSO : O < S)
    (hN : 0 < (splitWhitespace content).length) :
    create_chunks content source S O =
      .ok (chunksLoop (splitWhitespace content) source S O 0 0) ∧
    (O < (splitWhitespace content).length →
      (windowsLoop (splitWhitespace content) S O 0).length =
        ((splitWhitespace content).length - O + (S - O) - 1) / (S - O)) ∧
    ((splitWhitespace content).length ≤ O →
      (windowsLoop (splitWhitespace content) S O 0).length = 1) ∧
    (chunksLoop (splitWhitespace content) source S O 0 0).map (·.position) =
      List.range (chunksLoop (splitWhitespace content) source S O 0 0).length ∧
    (chunksLoop (splitWhitespace content) source S O 0 0).map (·.text) =
      ((windowsLoop (splitWhitespace content) S O 0).filter
        (fun w => 10 ≤ w.length)).map (fun w => " ".intercalate w) := by
  have hd : 0 < S - O := by omega
  have hne : content ≠ "" := by
    intro h
    rw [h, splitWhitespace_empty] at hN
    simp at hN
  refine ⟨?_, ?_, ?_, ?_, ?_⟩
  · have htok : ¬ (splitWhitespace content).isEmpty = true := by
      rw [List.isEmpty_iff]
      intro h
      rw [h] at hN
      simp at hN
    unfold create_chunks
    rw [if_neg hne, if_neg (by omega)]
    simp only []
    rw [if_neg htok]
  · intro hO
    rw [windowsLoop_length (splitWhitespace content) S O hSO 0 hN]
    simp only [Nat.sub_zero]
    have h1 : 1 ≤ ((splitWhitespace content).length - O + (S - O) - 1) / (S - O) := by
      apply (Nat.le_div_iff_mul_le hd).mpr
      omega
    omega
  · intro hO
    rw [windowsLoop_length (splitWhitespace content) S O hSO 0 hN]
    simp only [Nat.sub_zero]
    have h0 : (splitWhitespace content).length - O = 0 := by omega
    rw [h0]
    have hlt : (0 + (S - O) - 1) / (S - O) = 0 := by
      apply Nat.div_eq_of_lt
      omega
    rw [hlt]
    omega
  · rw [chunksLoop_positions, List.range_eq_range']
  · exact chunksLoop_texts (splitWhitespace content) source S O 0 0

/-- Twelve single-letter tokens, the C6 witness content. -/
def c6Content : String := "a b c d e f g h i j k l"

/-- C6 (witness): the amended theorem at 12 single-letter tokens with
`chunk_size = 10`, `chunk_overlap = 3`: two candidate windows
(`ceil((12−3)/7) = 2`), of which only the first reaches 10 tokens. -/
theorem c6_witness :
    create_chunks c6Content "s" 10 3 =
      .ok (chunksLoop (splitWhitespace c6Content) "s" 10 3 0 0) ∧
    (windowsLoop (splitWhitespace c6Content) 10 3 0).length =
      ((splitWhitespace c6Content).length - 3 + (10 - 3) - 1) / (10 - 3) :=
  ⟨ ( c6_theorem c6Content "s" 10 3 (by decide) (by decide)).1,
    ( c6_theorem c6Content "s" 10 3 (by decide) (by decide)).2.1 (by decide)⟩

theorem alGet_alInsert_ne {β : Type} (k k' : String) (v : β)
    (l : List (String × β)) (h : k' ≠ k) :
    alGet k' (alInsert k v l) = alGet k' l := by
  induction l with
  | nil => simp [alInsert, alGet, Ne.symm h]
  | cons p rest ih =>
    obtain ⟨pk, pv⟩ := p
    by_cases hp : pk = k
    · subst hp
      simp only [alInsert]
      rw [if_pos trivial]
      simp [alGet, Ne.symm h]
    · simp only [alInsert]
      rw [if_neg hp]
      by_cases hp' : pk = k'
      · subst hp'
        simp [alGet]
      · simp only [alGet, if_neg hp']
        exact ih

theorem alGet_ne_none_iff_mem {β : Type} (k : String) (l : List (String × β)) :
    alGet k l ≠ none ↔ k ∈ l.map Prod.fst := by
  induction l with
  | nil => simp [alGet]
  | cons p rest ih =>
    obtain ⟨pk, pv⟩ := p
    by_cases hp : pk = k
    · subst hp
      simp [alGet]
    · simp only [alGet, if_neg hp, List.map_cons, List.mem_cons]
      rw [ih]
      constructor
      · exact Or.inr
      · rintro (h | h)
        · exact absurd h.symm hp
        · exact h

theorem alInsert_keys_nodup {β : Type} (k : String) (v : β)
    (l : List (String × β)) (h : (l.map Prod.fst).Nodup) :
    ((alInsert k v l).map Prod.fst).Nodup := by
  induction l with
  | nil => simp [alInsert]
  | cons p rest ih =>
    obtain ⟨pk, pv⟩ := p
    simp only [List.map_cons, List.nodup_cons] at h
    by_cases hp : pk = k
    · subst hp
      simp only [alInsert]
      rw [if_pos trivial]
      simp only [List.map_cons, List.nodup_cons]
      exact h
    · simp only [alInsert]
      rw [if_neg hp]
      simp only [List.map_cons, List.nodup_cons]
      constructor
      · intro hmem
        -- pk is among the keys of alInsert k v rest : either k or an old key
        have : pk ∈ rest.map Prod.fst := by
          by_contra hno
          have h1 : alGet pk (alInsert k v rest) ≠ none := by
            rw [alGet_ne_none_iff_mem]
            exact hmem
          rw [alGet_alInsert_ne k pk v rest hp] at h1
          rw [alGet_ne_none_iff_mem] at h1
          exact hno h1
        exact h.1 this
      · exact ih h.2

theorem alGet_alErase_self {β : Type} (k : String) (l : List (String × β))
    (h : (l.map Prod.fst).Nodup) : alGet k (alErase k l) = none := by
  induction l with
  | nil => simp [alErase, alGet]
  | cons p rest ih =>
    obtain ⟨pk, pv⟩ := p
    simp only [List.map_cons, List.nodup_cons] at h
    by_cases hp : pk = k
    · subst hp
      simp only [alErase, if_pos rfl]
      cases hres : alGet pk rest with
      | none => exact hres
      | some v =>
        exfalso
        have : alGet pk rest ≠ none := by rw [hres]; simp
        rw [alGet_ne_none_iff_mem] at this
        exact h.1 this
    · simp only [alErase, if_neg hp, alGet, if_neg hp]
      exact ih h.2

theorem alGet_alErase_of_none {β : Type} (k j : String) (l : List (String × β))
    (h : alGet k l = none) : alGet k (alErase j l) = none := by
  induction l with
  | nil => simp [alErase, alGet]
  | cons p rest ih =>
    obtain ⟨pk, pv⟩ := p
    by_cases hp : pk = k
    · subst hp
      simp [alGet] at h
    · simp only [alGet, if_neg hp] at h
      simp only [alErase]
      by_cases hj : pk = j
      · rw [if_pos hj]
        exact h
      · rw [if_neg hj]
        simp only [alGet, if_neg hp]
        exact ih h

theorem alErase_keys_nodup {β : Type} (k : String) (l : List (String × β))
    (h : (l.map Prod.fst).Nodup) : ((alErase k l).map Prod.fst).Nodup := by
  induction l with
  | nil => simp [alErase]
  | cons p rest ih =>
    obtain ⟨pk, pv⟩ := p
    simp only [List.map_cons, List.nodup_cons] at h
    by_cases hp : pk = k
    · rw [alErase, if_pos hp]
      exact h.2
    · rw [alErase, if_neg hp]
      simp only [List.map_cons, List.nodup_cons]
      refine ⟨fun hmem => ?_, ih h.2⟩
      have : pk ∈ rest.map Prod.fst := by
        by_contra hno
        have h1 : alGet pk (alErase k rest) ≠ none := by
          rw [alGet_ne_none_iff_mem]
          exact hmem
        have h2 : alGet pk rest = none := by
          cases hres : alGet pk rest with
          | none => rfl
          | some v =>
            exfalso
            have hne : alGet pk rest ≠ none := by rw [hres]; simp
            rw [alGet_ne_none_iff_mem] at hne
            exact hno hne
        exact h1 (alGet_alErase_of_none pk k rest h2)
      exact h.1 this

theorem diffChunks_cons_unchanged (c : Chunk) (rest : List Chunk) (st : HashState)
    (h : alGet c.id st = some (calculate_chunk_hash c)) :
    diffChunks (c :: rest) st = diffChunks rest st := by
  conv_lhs => rw [diffChunks]
  simp only [h, if_true]

theorem diffChunks_cons_modified (c : Chunk) (rest : List Chunk) (st : HashState)
    (hv : List HashTok) (hsome : alGet c.id st = some hv)
    (hne : hv ≠ calculate_chunk_hash c) :
    diffChunks (c :: rest) st =
      ((diffChunks rest (alInsert c.id (calculate_chunk_hash c) st)).1,
       (diffChunks rest (alInsert c.id (calculate_chunk_hash c) st)).2.1,
       c :: (diffChunks rest (alInsert c.id (calculate_chunk_hash c) st)).2.2) := by
  conv_lhs => rw [diffChunks]
  simp only [hsome, if_neg hne]

theorem diffChunks_cons_new (c : Chunk) (rest : List Chunk) (st : HashState)
    (h : alGet c.id st = none) :
    diffChunks (c :: rest) st =
      ((diffChunks rest (alInsert c.id (calculate_chunk_hash c) st)).1,
       c :: (diffChunks rest (alInsert c.id (calculate_chunk_hash c) st)).2.1,
       (diffChunks rest (alInsert c.id (calculate_chunk_hash c) st)).2.2) := by
  conv_lhs => rw [diffChunks]
  simp only [h]

/-- Splitting the head of the chunk walk into its three classification
cases, for induction proofs. -/
theorem diffChunks_cases (c : Chunk) (st : HashState) :
    alGet c.id st = some (calculate_chunk_hash c) ∨
    (∃ hv, alGet c.id st = some hv ∧ hv ≠ calculate_chunk_hash c) ∨
    alGet c.id st = none := by
  rcases h : alGet c.id st with _ | hv
  · right; right; rfl
  · by_cases he : hv = calculate_chunk_hash c
    · left; rw [he]
    · right; left; exact ⟨hv, rfl, he⟩

theorem diffChunks_state_stable (chunks : List Chunk) :
    ∀ (st : HashState) (k : String), k ∉ chunks.map (·.id) →
      alGet k (diffChunks chunks st).1 = alGet k st := by
  induction chunks with
  | nil => intro st k _; rfl
  | cons c rest ih =>
    intro st k hk
    simp only [List.map_cons, List.mem_cons, not_or] at hk
    rcases diffChunks_cases c st with h | ⟨hv, hsome, hne⟩ | h
    · rw [diffChunks_cons_unchanged c rest st h]
      exact ih st k (by simpa using hk.2)
    · rw [diffChunks_cons_modified c rest st hv hsome hne]
      simp only []
      rw [ih _ k (by simpa using hk.2)]
      exact alGet_alInsert_ne c.id k (calculate_chunk_hash c) st hk.1
    · rw [diffChunks_cons_new c rest st h]
      simp only []
      rw [ih _ k (by simpa using hk.2)]
      exact alGet_alInsert_ne c.id k (calculate_chunk_hash c) st hk.1

theorem diffChunks_state_nodup (chunks : List Chunk) :
    ∀ st : HashState, (st.map Prod.fst).Nodup →
      ((diffChunks chunks st).1.map Prod.fst).Nodup := by
  induction chunks with
  | nil => intro st h; exact h
  | cons c rest ih =>
    intro st hst
    rcases diffChunks_cases c st with h | ⟨hv, hsome, hne⟩ | h
    · rw [diffChunks_cons_unchanged c rest st h]
      exact ih st hst
    · rw [diffChunks_cons_modified c rest st hv hsome hne]
      exact ih _ (alInsert_keys_nodup _ _ _ hst)
    · rw [diffChunks_cons_new c rest st h]
      exact ih _ (alInsert_keys_nodup _ _ _ hst)

theorem diffChunks_new_sub (chunks : List Chunk) :
    ∀ st : HashState, (diffChunks chunks st).2.1 ⊆ chunks := by
  induction chunks with
  | nil => intro st x hx; exact absurd hx (by simp [diffChunks])
  | cons c rest ih =>
    intro st x hx
    rcases diffChunks_cases c st with h | ⟨hv, hsome, hne⟩ | h
    · rw [diffChunks_cons_unchanged c rest st h] at hx
      exact List.mem_cons_of_mem c (ih st hx)
    · rw [diffChunks_cons_modified c rest st hv hsome hne] at hx
      exact List.mem_cons_of_mem c (ih _ hx)
    · rw [diffChunks_cons_new c rest st h] at hx
      rcases List.mem_cons.mp hx with rfl | hx'
      · exact List.mem_cons_self x rest
      · exact List.mem_cons_of_mem c (ih _ hx')

theorem diffChunks_mod_sub (chunks : List Chunk) :
    ∀ st : HashState, (diffChunks chunks st).2.2 ⊆ chunks := by
  induction chunks with
  | nil => intro st x hx; exact absurd hx (by simp [diffChunks])
  | cons c rest ih =>
    intro st x hx
    rcases diffChunks_cases c st with h | ⟨hv, hsome, hne⟩ | h
    · rw [diffChunks_cons_unchanged c rest st h] at hx
      exact List.mem_cons_of_mem c (ih st hx)
    · rw [diffChunks_cons_modified c rest st hv hsome hne] at hx
      rcases List.mem_cons.mp hx with rfl | hx'
      · exact List.mem_cons_self x rest
      · exact List.mem_cons_of_mem c (ih _ hx')
    · rw [diffChunks_cons_new c rest st h] at hx
      exact List.mem_cons_of_mem c (ih _ hx)

theorem diffChunks_mem (chunks : List Chunk) :
    ∀ st : HashState, (chunks.map (·.id)).Nodup →
      ∀ c ∈ chunks,
        (c ∈ (diffChunks chunks st).2.1 ↔ alGet c.id st = none) ∧
        (c ∈ (diffChunks chunks st).2.2 ↔
          ∃ hv, alGet c.id st = some hv ∧ hv ≠ calculate_chunk_hash c) := by
  induction chunks with
  | nil => intro st _ c hc; exact absurd hc (by simp)
  | cons d rest ih =>
    intro st hnodup c hc
    simp only [List.map_cons, List.nodup_cons] at hnodup
    obtain ⟨hdid, hrest⟩ := hnodup
    have hc_not_in_rest_of_eq : c = d → c ∉ rest := by
      rintro rfl hmem
      exact hdid (List.mem_map.mpr ⟨c, hmem, rfl⟩)
    have hid_ne : c ∈ rest → c.id ≠ d.id := by
      intro hmem heq
      exact hdid (heq ▸ List.mem_map.mpr ⟨c, hmem, rfl⟩)
    rcases diffChunks_cases d st with h | ⟨hv, hsome, hne⟩ | h
    · -- unchanged head: skipped entirely
      rw [diffChunks_cons_unchanged d rest st h]
      rcases List.mem_cons.mp hc with rfl | hcr
      · constructor
        · constructor
          · intro habs
            exact absurd (diffChunks_new_sub rest st habs)
              (hc_not_in_rest_of_eq rfl)
          · intro habs
            rw [habs] at h
            exact absurd h (by simp)
        · constructor
          · intro habs
            exact absurd (diffChunks_mod_sub rest st habs)
              (hc_not_in_rest_of_eq rfl)
          · rintro ⟨hv, hsome, hne⟩
            rw [hsome] at h
            exact (hne (Option.some.inj h)).elim
      · exact ih st hrest c hcr
    · -- modified head
      rw [diffChunks_cons_modified d rest st hv hsome hne]
      simp only []
      rcases List.mem_cons.mp hc with rfl | hcr
      · constructor
        · constructor
          · intro habs
            exact absurd (diffChunks_new_sub rest _ habs)
              (hc_not_in_rest_of_eq rfl)
          · intro habs
            rw [habs] at hsome
            exact absurd hsome (by simp)
        · simp only [List.mem_cons, true_or, true_iff]
          exact ⟨hv, hsome, hne⟩
      · have hne_id : c.id ≠ d.id := hid_ne hcr
        have := ih (alInsert d.id (calculate_chunk_hash d) st) hrest c hcr
        rw [alGet_alInsert_ne d.id c.id _ st hne_id] at this
        constructor
        · exact this.1
        · rw [List.mem_cons]
          constructor
          · rintro (rfl | hmem)
            · exact absurd hcr (hc_not_in_rest_of_eq rfl)
            · exact this.2.mp hmem
          · intro hex
            exact Or.inr (this.2.mpr hex)
    · -- new head
      rw [diffChunks_cons_new d rest st h]
      simp only []
      rcases List.mem_cons.mp hc with rfl | hcr
      · constructor
        · simp only [List.mem_cons, true_or, true_iff]
          exact h
        · constructor
          · intro habs
            exact absurd (diffChunks_mod_sub rest _ habs)
              (hc_not_in_rest_of_eq rfl)
          · rintro ⟨hv, hsome, _⟩
            rw [hsome] at h
            exact absurd h (by simp)
      · have hne_id : c.id ≠ d.id := hid_ne hcr
        have := ih (alInsert d.id (calculate_chunk_hash d) st) hrest c hcr
        rw [alGet_alInsert_ne d.id c.id _ st hne_id] at this
        constructor
        · rw [List.mem_cons]
          constructor
          · rintro (rfl | hmem)
            · exact absurd hcr (hc_not_in_rest_of_eq rfl)
            · exact this.1.mp hmem
          · intro hex
            exact Or.inr (this.1.mpr hex)
        · exact this.2

theorem mem_modOps (mod : List Chunk) (x : WriteOp) :
    x ∈ mod.foldr (fun c acc => WriteOp.deleteTerm c.id :: WriteOp.addDoc c :: acc)
        [] ↔ ∃ c ∈ mod, x = .deleteTerm c.id ∨ x = .addDoc c := by
  induction mod with
  | nil => simp
  | cons c rest ih =>
    simp only [List.foldr_cons, List.mem_cons, ih]
    constructor
    · rintro (rfl | rfl | ⟨d, hd, hor⟩)
      · exact ⟨c, Or.inl rfl, Or.inl rfl⟩
      · exact ⟨c, Or.inl rfl, Or.inr rfl⟩
      · exact ⟨d, Or.inr hd, hor⟩
    · rintro ⟨d, rfl | hd', hor⟩
      · rcases hor with rfl | rfl
        · exact Or.inl rfl
        · exact Or.inr (Or.inl rfl)
      · exact Or.inr (Or.inr ⟨d, hd', hor⟩)

theorem alGet_eraseFold_of_none (ids : List String) :
    ∀ (st : HashState) (k : String), alGet k st = none →
      alGet k (ids.foldl (fun s i => alErase i s) st) = none := by
  induction ids with
  | nil => intro st k h; exact h
  | cons i rest ih =>
    intro st k h
    exact ih (alErase i st) k (alGet_alErase_of_none k i st h)

theorem eraseFold_keys_nodup (ids : List String) :
    ∀ st : HashState, (st.map Prod.fst).Nodup →
      ((ids.foldl (fun s i => alErase i s) st).map Prod.fst).Nodup := by
  induction ids with
  | nil => intro st h; exact h
  | cons i rest ih =>
    intro st h
    exact ih (alErase i st) (alErase_keys_nodup i st h)

theorem alGet_eraseFold_of_mem (ids : List String) :
    ∀ (st : HashState) (k : String), (st.map Prod.fst).Nodup → k ∈ ids →
      alGet k (ids.foldl (fun s i => alErase i s) st) = none := by
  induction ids with
  | nil => intro st k _ h; simp at h
  | cons i rest ih =>
    intro st k hnd hk
    rcases List.mem_cons.mp hk with rfl | hk'
    · exact alGet_eraseFold_of_none rest (alErase k st) k
        (alGet_alErase_self k st hnd)
    · exact ih (alErase i st) k (alErase_keys_nodup i st hnd) hk'

/-- Unfolding `build_index` through its destructuring `let`. -/
theorem build_index_eq (state : HashState) (chunks : List Chunk) :
    build_index state chunks =
      (if (diffChunks chunks state).2.1.isEmpty ∧
          (diffChunks chunks state).2.2.isEmpty ∧
          (((diffChunks chunks state).1.map (·.1)).filter
            (fun id => ¬ id ∈ chunks.map (·.id))).isEmpty then
        ([], state)
      else
        ((((diffChunks chunks state).1.map (·.1)).filter
            (fun id => ¬ id ∈ chunks.map (·.id))).map WriteOp.deleteTerm ++
          (diffChunks chunks state).2.1.map WriteOp.addDoc ++
          (diffChunks chunks state).2.2.foldr
            (fun c acc => WriteOp.deleteTerm c.id :: WriteOp.addDoc c :: acc) [] ++
          [WriteOp.commit],
         (((diffChunks chunks state).1.map (·.1)).filter
            (fun id => ¬ id ∈ chunks.map (·.id))).foldl
              (fun s id => alErase id s) (diffChunks chunks state).1)) := by
  unfold build_index
  rcases diffChunks chunks state with ⟨a, b, c⟩
  rfl

/-- C3: for every prior `IndexState` and current chunk list (with the
well-formedness the real `HashMap`s guarantee: no duplicate state keys, no
duplicate chunk ids), the change tracker classifies each current chunk as
New iff its id is absent from the state, Modified iff present with a
different hash, and an Unchanged chunk (present, equal hash) is skipped —
no add and no delete write mentions it; an id is collected as Removed iff
it is in the prior state and absent from the current chunk set, and every
Removed id is both deleted from the Lexical Index (a `delete_term` write)
and purged from the persisted chunk-hash map. -/
theorem c3_theorem (state : HashState) (chunks : List Chunk)
    (hstate : (state.map Prod.fst).Nodup)
    (hids : (chunks.map (·.id)).Nodup) :
    (∀ c ∈ chunks,
      (c ∈ (diffChunks chunks state).2.1 ↔ alGet c.id state = none) ∧
      (c ∈ (diffChunks chunks state).2.2 ↔
        ∃ hv, alGet c.id state = some hv ∧ hv ≠ calculate_chunk_hash c) ∧
      (alGet c.id state = some (calculate_chunk_hash c) →
        WriteOp.addDoc c ∉ (build_index state chunks).1 ∧
        WriteOp.deleteTerm c.id ∉ (build_index state chunks).1)) ∧
    (∀ id : String,
      id ∈ ((diffChunks chunks state).1.map (·.1)).filter
          (fun id => ¬ id ∈ chunks.map (·.id)) ↔
        id ∈ state.map Prod.fst ∧ ¬ id ∈ chunks.map (·.id)) ∧
    (∀ id ∈ ((diffChunks chunks state).1.map (·.1)).filter
        (fun id => ¬ id ∈ chunks.map (·.id)),
      WriteOp.deleteTerm id ∈ (build_index state chunks).1 ∧
      alGet id (build_index state chunks).2 = none) := by
  have hmem := diffChunks_mem chunks state hids
  have hremoved : ∀ id : String,
      id ∈ ((diffChunks chunks state).1.map (·.1)).filter
          (fun id => ¬ id ∈ chunks.map (·.id)) ↔
        id ∈ state.map Prod.fst ∧ ¬ id ∈ chunks.map (·.id) := by
    intro id
    rw [List.mem_filter]
    have hkey : (id ∈ (diffChunks chunks state).1.map (·.1)) =
        (id ∈ (diffChunks chunks state).1.map Prod.fst) := rfl
    constructor
    · rintro ⟨hmem1, hdec⟩
      simp only [decide_eq_true_eq] at hdec
      have hstable := diffChunks_state_stable chunks state id hdec
      rw [hkey, ← alGet_ne_none_iff_mem, hstable, alGet_ne_none_iff_mem] at hmem1
      exact ⟨hmem1, hdec⟩
    · rintro ⟨hmem1, hdec⟩
      refine ⟨?_, by simpa using hdec⟩
      have hstable := diffChunks_state_stable chunks state id hdec
      rw [hkey, ← alGet_ne_none_iff_mem, hstable, alGet_ne_none_iff_mem]
      exact hmem1
  refine ⟨?_, hremoved, ?_⟩
  · intro c hc
    refine ⟨(hmem c hc).1, (hmem c hc).2, ?_⟩
    intro hunchanged
    have hnotnew : c ∉ (diffChunks chunks state).2.1 := by
      rw [(hmem c hc).1, hunchanged]
      simp
    have hnotmod : c ∉ (diffChunks chunks state).2.2 := by
      rw [(hmem c hc).2]
      rintro ⟨hv, hsome, hne⟩
      rw [hunchanged] at hsome
      exact hne (Option.some.inj hsome).symm
    rw [build_index_eq]
    split
    · simp
    · have hcid : c.id ∈ chunks.map (·.id) := List.mem_map.mpr ⟨c, hc, rfl⟩
      constructor
      · intro habs
        rcases List.mem_append.mp habs with h1 | h1
        · rcases List.mem_append.mp h1 with h2 | h2
          · rcases List.mem_append.mp h2 with h3 | h3
            · obtain ⟨x, -, hx⟩ := List.mem_map.mp h3
              exact WriteOp.noConfusion hx
            · obtain ⟨x, hx, hxe⟩ := List.mem_map.mp h3
              have hxc : x = c := by injection hxe
              rw [hxc] at hx
              exact hnotnew hx
          · rcases (mem_modOps _ _).mp h2 with ⟨x, hx, hbad | hbad⟩
            · exact WriteOp.noConfusion hbad
            · have hxc : c = x := by injection hbad
              rw [← hxc] at hx
              exact hnotmod hx
        · simp at h1
      · intro habs
        rcases List.mem_append.mp habs with h1 | h1
        · rcases List.mem_append.mp h1 with h2 | h2
          · rcases List.mem_append.mp h2 with h3 | h3
            · obtain ⟨x, hx, hxe⟩ := List.mem_map.mp h3
              have hxc : x = c.id := by injection hxe
              rw [hxc, List.mem_filter] at hx
              have hx2 := hx.2
              simp only [decide_eq_true_eq] at hx2
              exact hx2 hcid
            · obtain ⟨x, -, hx⟩ := List.mem_map.mp h3
              exact WriteOp.noConfusion hx
          · rcases (mem_modOps _ _).mp h2 with ⟨x, hx, hbad | hbad⟩
            · have hxc : c.id = x.id := by injection hbad
              have hxchunks : x ∈ chunks := diffChunks_mod_sub chunks state hx
              have hxc' : x = c :=
                List.inj_on_of_nodup_map hids hxchunks hc hxc.symm
              rw [hxc'] at hx
              exact hnotmod hx
            · exact WriteOp.noConfusion hbad
        · simp at h1
  · intro id hid
    have hnotempty : ¬ (((diffChunks chunks state).1.map (·.1)).filter
        (fun id => ¬ id ∈ chunks.map (·.id))).isEmpty = true := by
      rw [List.isEmpty_iff]
      intro h
      rw [h] at hid
      simp at hid
    rw [build_index_eq]
    rw [if_neg (by
      rintro ⟨-, -, h3⟩
      exact hnotempty h3)]
    constructor
    · apply List.mem_append.mpr
      left
      apply List.mem_append.mpr
      left
      apply List.mem_append.mpr
      left
      exact List.mem_map.mpr ⟨id, hid, rfl⟩
    · exact alGet_eraseFold_of_mem _ _ id
        (diffChunks_state_nodup chunks state hstate) hid


/-- Concrete prior-state/current-corpus instance for the C3 witness:
chunk `a` unchanged, chunk `b` modified, chunk `n` new, id `d` removed. -/
def c3ChunkA : Chunk := ⟨"a", "alpha text", "f.md", none, 0⟩

def c3ChunkBold : Chunk := ⟨"b", "old text", "f.md", none, 1⟩

def c3ChunkBnew : Chunk := ⟨"b", "new text", "f.md", none, 1⟩

def c3ChunkN : Chunk := ⟨"n", "fresh text", "f.md", none, 2⟩

def c3State : HashState :=
  [("a", calculate_chunk_hash c3ChunkA),
   ("b", calculate_chunk_hash c3ChunkBold),
   ("d", [HashTok.str "gone"])]

def c3Chunks : List Chunk := [c3ChunkA, c3ChunkBnew, c3ChunkN]

/-- C3 (witness): on the concrete instance, the stale id `d` is deleted
from the Lexical Index and purged from the persisted chunk-hash map. -/
theorem c3_witness :
    WriteOp.deleteTerm "d" ∈ (build_index c3State c3Chunks).1 ∧
    alGet "d" (build_index c3State c3Chunks).2 = none :=
  (c3_theorem c3State c3Chunks (by decide) (by decide)).2.2 "d" (by decide)

/-! ## C2: re-running the pipeline on an unchanged corpus -/

/-- The single-document corpus of the C2 scenario: one plain-text file of
ten whitespace tokens. -/
def c2File : String × String := ("doc.txt", "t1 t2 t3 t4 t5 t6 t7 t8 t9 t10")

/-- The one chunk the first run produces from `c2File` (default
`chunk_size = 500`, `chunk_overlap = 50`). -/
def c2Chunk : Chunk :=
  { id := "doc.txt:chunk0", text := "t1 t2 t3 t4 t5 t6 t7 t8 t9 t10"
    source := "doc.txt", heading := none, position := 0 }

theorem c2_chunks :
    create_chunks "t1 t2 t3 t4 t5 t6 t7 t8 t9 t10" "doc.txt" 500 50 =
      .ok [c2Chunk] := by
  have h : chunksLoop (splitWhitespace "t1 t2 t3 t4 t5 t6 t7 t8 t9 t10")
      "doc.txt" 500 50 0 0 = [c2Chunk] := by
    rw [chunksLoop.eq_def]
    decide
  unfold create_chunks
  rw [if_neg (by decide), if_neg (by decide)]
  simp only []
  rw [if_neg (by decide), h]

theorem c2_supported : is_supported_file "doc.txt" = true := by decide

theorem c2_processed :
    process_file_content "t1 t2 t3 t4 t5 t6 t7 t8 t9 t10" "doc.txt" =
      some "t1 t2 t3 t4 t5 t6 t7 t8 t9 t10" := by decide

theorem c2_ingest1 (checksum : String → String) :
    ingest_docs checksum 500 50 [c2File] [] =
      some (.ok ([c2Chunk], [("doc.txt", checksum c2File.2)])) := by
  simp only [ingest_docs, c2File]
  simp [ingestLoop, alGet, alInsert, c2_supported, c2_processed, c2_chunks]

theorem c2_ingest2 (checksum : String → String) :
    ingest_docs checksum 500 50 [c2File] [("doc.txt", checksum c2File.2)] =
      some (.ok ([], [("doc.txt", checksum c2File.2)])) := by
  simp only [ingest_docs, c2File]
  simp [ingestLoop, alGet, alInsert, c2_supported]

theorem c2_build1 :
    build_index [] [c2Chunk] =
      ([WriteOp.addDoc c2Chunk, WriteOp.commit],
       [("doc.txt:chunk0", calculate_chunk_hash c2Chunk)]) := by decide

theorem c2_build2 :
    build_index [("doc.txt:chunk0", calculate_chunk_hash c2Chunk)] [] =
      ([WriteOp.deleteTerm "doc.txt:chunk0", WriteOp.commit], []) := by decide

/-- C2 (code bug): run the `init` indexing pipeline twice over the same
unchanged one-file corpus, for **any** checksum function.  The first run
indexes one chunk and persists its hash.  On the second run `ingest_docs`
skips the unchanged file, so `build_index` receives an empty chunk list,
classifies the previously indexed chunk as Removed, issues a
`delete_term` write **and a commit** to the Lexical Index, and persists an
**empty** chunk-hash map — instead of the claimed zero writes and
unchanged `IndexState`. -/
theorem c2_theorem (checksum : String → String) :
    run_init checksum 500 50 [c2File] [] [] =
      some (.ok ([("doc.txt", checksum c2File.2)],
        [WriteOp.addDoc c2Chunk, WriteOp.commit],
        [("doc.txt:chunk0", calculate_chunk_hash c2Chunk)])) ∧
    run_init checksum 500 50 [c2File] [("doc.txt", checksum c2File.2)]
        [("doc.txt:chunk0", calculate_chunk_hash c2Chunk)] =
      some (.ok ([("doc.txt", checksum c2File.2)],
        [WriteOp.deleteTerm "doc.txt:chunk0", WriteOp.commit], [])) ∧
    ([("doc.txt:chunk0", calculate_chunk_hash c2Chunk)] : HashState) ≠ [] := by
  refine ⟨?_, ?_, by simp⟩
  · unfold run_init
    rw [c2_ingest1 checksum]
    simp only []
    rw [c2_build1]
  · unfold run_init
    rw [c2_ingest2 checksum]
    simp only []
    rw [c2_build2]

/-! ## Stable-sort lemmas for the fusion engine -/

theorem filter_orderedInsert_not (p : SearchResult → Bool) (x : SearchResult)
    (hx : p x = false) (l : List SearchResult) :
    (List.orderedInsert (fun a b => b.combined_score ≤ a.combined_score) x l).filter
        p = l.filter p := by
  induction l with
  | nil => simp [List.orderedInsert, hx]
  | cons y ys ih =>
    rw [List.orderedInsert]
    split
    · rw [List.filter_cons_of_neg (by simp [hx])]
    · rw [List.filter_cons, List.filter_cons]
      split
      · rw [ih]
      · exact ih

theorem filter_orderedInsert_pos (p : SearchResult → Bool) (x : SearchResult)
    (hx : p x = true) (c : ℝ) (hxc : x.combined_score = c)
    (l : List SearchResult)
    (hl : ∀ y ∈ l, p y = true → y.combined_score = c) :
    (List.orderedInsert (fun a b => b.combined_score ≤ a.combined_score) x l).filter
        p = x :: l.filter p := by
  induction l with
  | nil => simp [List.orderedInsert, hx]
  | cons y ys ih =>
    rw [List.orderedInsert]
    split
    · rw [List.filter_cons_of_pos hx]
    · rename_i hcmp
      have hyf : p y = false := by
        rcases hy : p y with _ | _
        · rfl
        · exfalso
          have hyc := hl y (List.mem_cons_self y ys) hy
          rw [hyc, hxc] at hcmp
          exact hcmp le_rfl
      rw [List.filter_cons_of_neg (by simp [hyf]),
        List.filter_cons_of_neg (by simp [hyf])]
      exact ih (fun z hz => hl z (List.mem_cons_of_mem y hz))

/-- A stable descending sort does not disturb the relative order of the
elements selected by `p` when they all carry the same sort key. -/
theorem filter_insertionSort_const (p : SearchResult → Bool) (c : ℝ)
    (l : List SearchResult)
    (hl : ∀ y ∈ l, p y = true → y.combined_score = c) :
    (sortResultsDesc l).filter p = l.filter p := by
  unfold sortResultsDesc
  induction l with
  | nil => rfl
  | cons x xs ih =>
    rw [List.insertionSort]
    have hxs : ∀ y ∈ List.insertionSort
        (fun a b => b.combined_score ≤ a.combined_score) xs,
        p y = true → y.combined_score = c := by
      intro y hy
      exact hl y (List.mem_cons_of_mem x
        ((List.perm_insertionSort _ xs).mem_iff.mp hy))
    rcases hx : p x with _ | _
    · rw [filter_orderedInsert_not p x hx, List.filter_cons_of_neg (by simp [hx])]
      exact ih (fun z hz => hl z (List.mem_cons_of_mem x hz))
    · rw [filter_orderedInsert_pos p x hx c
        (hl x (List.mem_cons_self x xs) hx) _ hxs,
        List.filter_cons_of_pos hx]
      rw [ih (fun z hz => hl z (List.mem_cons_of_mem x hz))]

/-- The skip-fold of the fusion merge leaves the subsequence of
lexical-pass results untouched: filtering the merged accumulator by
membership of the lexical id set gives back exactly the lexical result
list `L`, because a semantic candidate whose id is already present (in
particular, present among the lexical results it is checked against) is
skipped, and an appended one therefore matches no lexical id. -/
theorem foldSkip_filter (lex : List Chunk) (alpha : ℝ) (L : List SearchResult)
    (hb : ∀ r ∈ L, ((lex.map (·.id)).any (fun i => i == r.chunk.id)) = true)
    (hcover : ∀ c ∈ lex, ∃ r ∈ L, r.chunk.id = c.id) :
    ∀ (sems : List (EnhancedChunk × ℝ)) (acc : List SearchResult),
      acc.filter (fun r => (lex.map (·.id)).any (fun i => i == r.chunk.id)) = L →
      (∀ r ∈ L, r ∈ acc) →
      ((sems.foldl (fun acc p =>
          if acc.any (fun r => r.chunk.id == p.1.id) then acc
          else acc ++ [{ chunk := p.1
                         bm25_score := 0
                         semantic_score := p.2
                         combined_score := (1 - alpha) * ((p.2 + 1) / 2) }]) acc).filter
        (fun r => (lex.map (·.id)).any (fun i => i == r.chunk.id))) = L := by
  intro sems
  induction sems with
  | nil => intro acc hf _; exact hf
  | cons q rest ih =>
    intro acc hf hsub
    simp only [List.foldl_cons]
    rcases hany : acc.any (fun r => r.chunk.id == q.1.id) with _ | _
    · rw [if_neg (by simp [hany])]
      apply ih
      · have hnew : ((lex.map (·.id)).any (fun i => i == q.1.id)) = false := by
          rw [← Bool.not_eq_true, List.any_eq_true]
          rintro ⟨i, hi, hbeq⟩
          obtain ⟨c, hc, rfl⟩ := List.mem_map.mp hi
          rw [beq_iff_eq] at hbeq
          obtain ⟨r, hr, hrid⟩ := hcover c hc
          have habs : acc.any (fun r => r.chunk.id == q.1.id) = true := by
            rw [List.any_eq_true]
            exact ⟨r, hsub r hr, by rw [beq_iff_eq, hrid, hbeq]⟩
          rw [hany] at habs
          exact Bool.noConfusion habs
        rw [List.filter_append, hf, List.filter_cons_of_neg (by simpa using hnew),
          List.filter_nil, List.append_nil]
      · intro r hr
        exact List.mem_append_left _ (hsub r hr)
    · rw [if_pos rfl]
      exact ih acc hf hsub

/-- Worker lemma for the fused-ranking order property, stated directly on
the merge/sort/truncate core of the fusion engine for arbitrary lexical
candidate and semantic candidate lists. -/
theorem fusedLexOrder (lex : List Chunk) (sems : List (EnhancedChunk × ℝ))
    (alpha : ℝ) (k : ℕ) :
    ((((sortResultsDesc (sems.foldl (fun acc p =>
        if acc.any (fun r => r.chunk.id == p.1.id) then acc
        else acc ++ [{ chunk := p.1
                       bm25_score := 0
                       semantic_score := p.2
                       combined_score := (1 - alpha) * ((p.2 + 1) / 2) }])
      (lex.map (fun c =>
        { chunk := enhancedOfChunk c
          bm25_score := 1
          semantic_score := 0
          combined_score := alpha * normalize_bm25_score 1 +
            (1 - alpha) * ((0 + 1) / 2) })))).take k).filter
      (fun r => (lex.map (·.id)).any (fun i => i == r.chunk.id))).map
      (fun r => r.chunk.id)) <+: lex.map (·.id) := by
  generalize hL : lex.map (fun c =>
    ({ chunk := enhancedOfChunk c
       bm25_score := 1
       semantic_score := 0
       combined_score := alpha * normalize_bm25_score 1 +
         (1 - alpha) * ((0 + 1) / 2) } : SearchResult)) = L
  have hb : ∀ r ∈ L, ((lex.map (·.id)).any (fun i => i == r.chunk.id)) = true := by
    intro r hr
    rw [← hL] at hr
    obtain ⟨c, hc, rfl⟩ := List.mem_map.mp hr
    rw [List.any_eq_true]
    exact ⟨c.id, List.mem_map.mpr ⟨c, hc, rfl⟩, beq_self_eq_true c.id⟩
  have hcover : ∀ c ∈ lex, ∃ r ∈ L, r.chunk.id = c.id := by
    intro c hc
    refine ⟨{ chunk := enhancedOfChunk c
              bm25_score := 1
              semantic_score := 0
              combined_score := alpha * normalize_bm25_score 1 +
                (1 - alpha) * ((0 + 1) / 2) }, ?_, rfl⟩
    rw [← hL]
    exact List.mem_map.mpr ⟨c, hc, rfl⟩
  have hfL : L.filter
      (fun r => (lex.map (·.id)).any (fun i => i == r.chunk.id)) = L :=
    List.filter_eq_self.mpr hb
  have hfold := foldSkip_filter lex alpha L hb hcover sems L hfL (fun r hr => hr)
  have hconst : ∀ y ∈ sems.foldl (fun acc p =>
      if acc.any (fun r => r.chunk.id == p.1.id) then acc
      else acc ++ [{ chunk := p.1
                     bm25_score := 0
                     semantic_score := p.2
                     combined_score := (1 - alpha) * ((p.2 + 1) / 2) }]) L,
      (fun r => (lex.map (·.id)).any (fun i => i == r.chunk.id)) y = true →
      y.combined_score =
        alpha * normalize_bm25_score 1 + (1 - alpha) * ((0 + 1) / 2) := by
    intro y hy hpy
    have hmem : y ∈ (sems.foldl (fun acc p =>
        if acc.any (fun r => r.chunk.id == p.1.id) then acc
        else acc ++ [{ chunk := p.1
                       bm25_score := 0
                       semantic_score := p.2
                       combined_score := (1 - alpha) * ((p.2 + 1) / 2) }]) L).filter
        (fun r => (lex.map (·.id)).any (fun i => i == r.chunk.id)) :=
      List.mem_filter.mpr ⟨hy, hpy⟩
    rw [hfold, ← hL] at hmem
    obtain ⟨c, hc, rfl⟩ := List.mem_map.mp hmem
    rfl
  have hsort := filter_insertionSort_const
    (fun r => (lex.map (·.id)).any (fun i => i == r.chunk.id))
    (alpha * normalize_bm25_score 1 + (1 - alpha) * ((0 + 1) / 2)) _ hconst
  have hpre : (((sortResultsDesc (sems.foldl (fun acc p =>
      if acc.any (fun r => r.chunk.id == p.1.id) then acc
      else acc ++ [{ chunk := p.1
                     bm25_score := 0
                     semantic_score := p.2
                     combined_score := (1 - alpha) * ((p.2 + 1) / 2) }]) L)).take
        k).filter (fun r => (lex.map (·.id)).any (fun i => i == r.chunk.id)))
      <+: L := by
    have h1 := List.IsPrefix.filter
      (fun r => (lex.map (·.id)).any (fun i => i == r.chunk.id))
      ( List.take_prefix k (sortResultsDesc (sems.foldl (fun acc p =>
        if acc.any (fun r => r.chunk.id == p.1.id) then acc
        else acc ++ [{ chunk := p.1
                       bm25_score := 0
                       semantic_score := p.2
                       combined_score := (1 - alpha) * ((p.2 + 1) / 2) }]) L)))
    rw [hsort, hfold] at h1
    exact h1
  have hmap : L.map (fun r => r.chunk.id) = lex.map (·.id) := by
    rw [← hL, List.map_map]
    rfl
  have := hpre.map (fun r => r.chunk.id)
  rw [hmap] at this
  exact this

/-- C5 (amended): for every query, k and **every** α (hence in particular
α = 1 and α = 0), the fused ranking restricted to the candidates of the
lexical pass preserves the lexical (BM25) ordering: the ids of the
lexical-pass results surviving in the fused output form a prefix of the
lexical candidate id sequence.  All lexical-pass candidates carry the same
combined score — the placeholder lexical score and the absent candidate
embedding make the per-candidate terms constant — and the sort is stable,
so at α = 0 the order is the lexical one, not the pure-semantic one. -/
theorem c5_theorem (bm : String → ℕ → List Chunk) (encode : String → List ℝ)
    (store : EmbeddingStore) (query : String) (top_k : ℕ) (alpha : ℝ) :
    (((hybrid_search_with_alpha bm encode store query top_k alpha).filter
        (fun r => ((bm query (top_k * 3)).map (·.id)).any
          (fun i => i == r.chunk.id))).map (fun r => r.chunk.id)) <+:
      (bm query (top_k * 3)).map (·.id) :=
  fusedLexOrder (bm query (top_k * 3))
    (similarity_search store (encode query) top_k) alpha top_k

theorem listAnyMap {α β : Type} (f : α → β) (l : List α) (p : β → Bool) :
    (l.map f).any p = l.any (fun a => p (f a)) := by
  induction l with
  | nil => rfl
  | cons x xs ih => simp [ih]

theorem alGet_mem {β : Type} (k : String) (l : List (String × β)) (v : β)
    (h : alGet k l = some v) : (k, v) ∈ l := by
  induction l with
  | nil => simp [alGet] at h
  | cons p rest ih =>
    obtain ⟨pk, pv⟩ := p
    by_cases hp : pk = k
    · subst hp
      have h2 : some pv = some v := by simpa [alGet] using h
      obtain rfl : pv = v := Option.some.inj h2
      exact List.mem_cons_self _ _
    · simp only [alGet, if_neg hp] at h
      exact List.mem_cons_of_mem _ (ih h)

/-- The ids of a `similarity_search` result list are distinct, given the
store invariants the real `HashMap`-backed store maintains: distinct
embedding keys, and every chunk record stored under its own id
(`add_chunk` inserts at `chunk.id`). -/
theorem similarity_search_ids_nodup (store : EmbeddingStore) (qe : List ℝ)
    (k : ℕ) (hkeys : (store.embeddings.map Prod.fst).Nodup)
    (hwf : ∀ q ∈ store.chunks, (Prod.snd q).id = Prod.fst q) :
    ((similarity_search store qe k).map (fun q => q.1.id)).Nodup := by
  have hsub : ∀ l : List (String × List ℝ),
      ((l.filterMap (fun p =>
        match alGet p.1 store.chunks with
        | some chunk => some (chunk, cosine_similarity qe p.2)
        | none => none)).map (fun q => q.1.id)).Sublist (l.map Prod.fst) := by
    intro l
    induction l with
    | nil => simp
    | cons p rest ih =>
      rw [List.filterMap_cons]
      rcases hget : alGet p.1 store.chunks with _ | ch
      · simp only [List.map_cons]
        exact ih.cons _
      · have hid : ch.id = p.1 := hwf (p.1, ch) (alGet_mem _ _ _ hget)
        simp only [List.map_cons]
        rw [show ((ch, cosine_similarity qe p.2).1.id) = p.1 from hid]
        exact ih.cons₂ _
  have hscored : ((store.embeddings.filterMap (fun p =>
      match alGet p.1 store.chunks with
      | some chunk => some (chunk, cosine_similarity qe p.2)
      | none => none)).map (fun q => q.1.id)).Nodup :=
    (hsub store.embeddings).nodup hkeys
  have hperm : ((sortPairsDesc (store.embeddings.filterMap (fun p =>
      match alGet p.1 store.chunks with
      | some chunk => some (chunk, cosine_similarity qe p.2)
      | none => none))).map (fun q => q.1.id)).Nodup := by
    have hp := (List.perm_insertionSort
      (fun a b : EnhancedChunk × ℝ => b.2 ≤ a.2)
      (store.embeddings.filterMap (fun p =>
        match alGet p.1 store.chunks with
        | some chunk => some (chunk, cosine_similarity qe p.2)
        | none => none))).map (fun q => q.1.id)
    exact (hp.nodup_iff).mpr hscored
  have htake := (List.Sublist.map (fun q : EnhancedChunk × ℝ => q.1.id)
    (List.take_sublist k _)).nodup hperm
  exact htake

/-- The skip-fold of the fusion merge, run over semantic candidates with
pairwise-distinct ids none of which appears among the already-appended
`done` candidates, equals appending the lexical-id-filtered candidates. -/
theorem foldSkip_eq (alpha : ℝ) (L : List SearchResult) :
    ∀ sems : List (EnhancedChunk × ℝ),
      (sems.map (fun q => q.1.id)).Nodup →
      ∀ done : List (EnhancedChunk × ℝ),
      (∀ q ∈ sems, ∀ d ∈ done, q.1.id ≠ d.1.id) →
      sems.foldl (fun acc p =>
          if acc.any (fun r => r.chunk.id == p.1.id) then acc
          else acc ++ [{ chunk := p.1
                         bm25_score := 0
                         semantic_score := p.2
                         combined_score := (1 - alpha) * ((p.2 + 1) / 2) }])
        (L ++ done.map (fun p =>
          { chunk := p.1
            bm25_score := 0
            semantic_score := p.2
            combined_score := (1 - alpha) * ((p.2 + 1) / 2) })) =
      L ++ ((done ++ sems.filter
          (fun q => ! L.any (fun r => r.chunk.id == q.1.id))).map (fun p =>
        ({ chunk := p.1
           bm25_score := 0
           semantic_score := p.2
           combined_score := (1 - alpha) * ((p.2 + 1) / 2) } : SearchResult))) := by
  intro sems
  induction sems with
  | nil =>
    intro _ done _
    simp
  | cons q rest ih =>
    intro hnodup done hdone
    simp only [List.map_cons, List.nodup_cons] at hnodup
    simp only [List.foldl_cons]
    have hdoneany : ((done.map (fun p =>
        ({ chunk := p.1
           bm25_score := 0
           semantic_score := p.2
           combined_score := (1 - alpha) * ((p.2 + 1) / 2) } : SearchResult))).any
        (fun r => r.chunk.id == q.1.id)) = false := by
      rw [← Bool.not_eq_true, List.any_eq_true]
      rintro ⟨r, hr, hbeq⟩
      obtain ⟨d, hd, rfl⟩ := List.mem_map.mp hr
      rw [beq_iff_eq] at hbeq
      exact hdone q (List.mem_cons_self q rest) d hd hbeq.symm
    have hsplit : ((L ++ done.map (fun p =>
        ({ chunk := p.1
           bm25_score := 0
           semantic_score := p.2
           combined_score := (1 - alpha) * ((p.2 + 1) / 2) } : SearchResult))).any
        (fun r => r.chunk.id == q.1.id)) =
        L.any (fun r => r.chunk.id == q.1.id) := by
      rw [List.any_append, hdoneany, Bool.or_false]
    rcases hLany : L.any (fun r => r.chunk.id == q.1.id) with _ | _
    · -- not present: appended
      rw [if_neg (by rw [hsplit, hLany]; simp)]
      have hstep : (L ++ done.map (fun p =>
          ({ chunk := p.1
             bm25_score := 0
             semantic_score := p.2
             combined_score := (1 - alpha) * ((p.2 + 1) / 2) } : SearchResult))) ++
          [{ chunk := q.1
             bm25_score := 0
             semantic_score := q.2
             combined_score := (1 - alpha) * ((q.2 + 1) / 2) }] =
          L ++ (done ++ [q]).map (fun p =>
            ({ chunk := p.1
               bm25_score := 0
               semantic_score := p.2
               combined_score := (1 - alpha) * ((p.2 + 1) / 2) } : SearchResult)) := by
        simp
      rw [hstep, ih hnodup.2 (done ++ [q]) ?hnext]
      case hnext =>
        intro q' hq' d hd
        rcases List.mem_append.mp hd with hd' | hd'
        · exact hdone q' (List.mem_cons_of_mem q hq') d hd'
        · rw [List.mem_singleton.mp hd']
          intro heq
          exact hnodup.1 (heq ▸ List.mem_map.mpr ⟨q', hq', rfl⟩)
      rw [List.filter_cons_of_pos (by simp [hLany])]
      simp
    · -- already present by id among the lexical results: skipped
      rw [if_pos (by rw [hsplit, hLany])]
      rw [ih hnodup.2 done (fun q' hq' => hdone q' (List.mem_cons_of_mem q hq'))]
      rw [List.filter_cons_of_neg (by simp [hLany])]

/-- C1 (amended): for every query, k and α, and every well-formed store
(distinct embedding keys; chunk records stored under their own id), the
fusion engine computes exactly the procedure of the claim **with the
semantic-score clause corrected**: each lexical candidate's semantic score
is 0 (the candidate carries no embedding and the store is never consulted
for it), so `combined = α·sigmoid(1/5·score) + (1-α)·1/2` for lexical
candidates; separately retrieved top-k semantic candidates not already
present by id get `(1-α)·normSem`; merge, stable-sort by combined
descending, truncate to k. -/
theorem c1_theorem (bm : String → ℕ → List Chunk) (encode : String → List ℝ)
    (store : EmbeddingStore) (query : String) (top_k : ℕ) (alpha : ℝ)
    (hkeys : (store.embeddings.map Prod.fst).Nodup)
    (hwf : ∀ q ∈ store.chunks, (Prod.snd q).id = Prod.fst q) :
    hybrid_search_with_alpha bm encode store query top_k alpha =
      fusionAmended bm encode store query top_k alpha := by
  have hnodup := similarity_search_ids_nodup store (encode query) top_k hkeys hwf
  have hfold := foldSkip_eq alpha
    ((bm query (top_k * 3)).map (fun c =>
      { chunk := enhancedOfChunk c
        bm25_score := 1
        semantic_score := 0
        combined_score := alpha * normalize_bm25_score 1 +
          (1 - alpha) * ((0 + 1) / 2) }))
    (similarity_search store (encode query) top_k) hnodup [] (by simp)
  simp only [List.map_nil, List.append_nil, List.nil_append] at hfold
  show (sortResultsDesc ((similarity_search store (encode query) top_k).foldl
    (fun acc p =>
      if acc.any (fun r => r.chunk.id == p.1.id) then acc
      else acc ++ [{ chunk := p.1
                     bm25_score := 0
                     semantic_score := p.2
                     combined_score := (1 - alpha) * ((p.2 + 1) / 2) }])
    ((bm query (top_k * 3)).map (fun c =>
      { chunk := enhancedOfChunk c
        bm25_score := 1
        semantic_score := 0
        combined_score := alpha * normalize_bm25_score 1 +
          (1 - alpha) * ((0 + 1) / 2) })))).take top_k = _
  rw [hfold]
  have hpred : (fun q : EnhancedChunk × ℝ =>
      ! ((bm query (top_k * 3)).map (fun c =>
        ({ chunk := enhancedOfChunk c
           bm25_score := 1
           semantic_score := 0
           combined_score := alpha * normalize_bm25_score 1 +
             (1 - alpha) * ((0 + 1) / 2) } : SearchResult))).any
        (fun r => r.chunk.id == q.1.id)) =
      (fun q : EnhancedChunk × ℝ =>
        ! ((bm query (top_k * 3)).map (·.id)).any (fun i => i == q.1.id)) := by
    funext q
    rw [listAnyMap, listAnyMap]
    rfl
  rw [hpred]
  rfl

/-- C1 (witness): the amended theorem at the empty store and an empty
lexical pass. -/
theorem c1_witness :
    hybrid_search_with_alpha (fun _ _ => []) (fun _ => []) ⟨[], []⟩ "q" 1 0 =
      fusionAmended (fun _ _ => []) (fun _ => []) ⟨[], []⟩ "q" 1 0 :=
  c1_theorem (fun _ _ => []) (fun _ => []) ⟨[], []⟩ "q" 1 0 (by simp)
    (by simp)

theorem cos_e1_e1 : cosine_similarity [(1 : ℝ), 0] [1, 0] = 1 := by
  unfold cosine_similarity
  rw [if_neg (by simp)]
  norm_num [dotList, sumSq, Real.sqrt_one]

theorem cos_e1_e2 : cosine_similarity [(1 : ℝ), 0] [0, 1] = 0 := by
  unfold cosine_similarity
  rw [if_neg (by simp)]
  norm_num [dotList, sumSq, Real.sqrt_one]

/-- Concrete instance for the C1 counterexample: one lexical candidate
whose id has a stored embedding perfectly aligned with the query
embedding. -/
def c1Chunk : Chunk := ⟨"a", "ta", "f.md", none, 0⟩

def c1Enh : EnhancedChunk := ⟨"a", "ta", "f.md", none, 0, some [1, 0]⟩

def c1Store : EmbeddingStore := ⟨[("a", [1, 0])], [("a", c1Enh)]⟩

def c1bm : String → ℕ → List Chunk := fun _ _ => [c1Chunk]

def c1encode : String → List ℝ := fun _ => [1, 0]

theorem c1_sem : similarity_search c1Store [1, 0] 1 = [(c1Enh, 1)] := by
  show (sortPairsDesc [(c1Enh, cosine_similarity [1, 0] [1, 0])]).take 1 = _
  rw [cos_e1_e1]
  rfl

/-- C1 (counterexample): at α = 0 with one lexical candidate whose stored
embedding equals the query embedding, the claimed procedure gives that
candidate semantic score 1 (cosine against the stored embedding) and
combined score 1, but the code gives semantic score 0 and combined score
1/2: the store is never consulted for lexical candidates. -/
theorem c1_counterexample :
    (hybrid_search_with_alpha c1bm c1encode c1Store "q" 1 0).map
      (fun r => r.semantic_score) = [0] ∧
    (fusionClaimed c1bm c1encode c1Store "q" 1 0).map
      (fun r => r.semantic_score) = [1] ∧
    (hybrid_search_with_alpha c1bm c1encode c1Store "q" 1 0).map
      (fun r => r.combined_score) = [1 / 2] ∧
    (fusionClaimed c1bm c1encode c1Store "q" 1 0).map
      (fun r => r.combined_score) = [1] ∧
    (0 : ℝ) ≠ 1 := by
  have hcode : hybrid_search_with_alpha c1bm c1encode c1Store "q" 1 0 =
      [{ chunk := enhancedOfChunk c1Chunk
         bm25_score := 1
         semantic_score := 0
         combined_score := 0 * normalize_bm25_score 1 +
           (1 - 0) * ((0 + 1) / 2) }] := by
    show (sortResultsDesc ((similarity_search c1Store [1, 0] 1).foldl
      (fun acc p =>
        if acc.any (fun r => r.chunk.id == p.1.id) then acc
        else acc ++ [{ chunk := p.1
                       bm25_score := 0
                       semantic_score := p.2
                       combined_score := (1 - 0) * ((p.2 + 1) / 2) }])
      [{ chunk := enhancedOfChunk c1Chunk
         bm25_score := 1
         semantic_score := 0
         combined_score := 0 * normalize_bm25_score 1 +
           (1 - 0) * ((0 + 1) / 2) }])).take 1 = _
    rw [c1_sem]
    simp only [List.foldl_cons, List.foldl_nil]
    rw [if_pos (by decide)]
    rfl
  have hclaim : fusionClaimed c1bm c1encode c1Store "q" 1 0 =
      [{ chunk := enhancedOfChunk c1Chunk
         bm25_score := 1
         semantic_score := cosine_similarity [1, 0] [1, 0]
         combined_score := 0 * normalize_bm25_score 1 +
           (1 - 0) * ((cosine_similarity [1, 0] [1, 0] + 1) / 2) }] := by
    show (sortResultsDesc
      ([{ chunk := enhancedOfChunk c1Chunk
          bm25_score := 1
          semantic_score := cosine_similarity [1, 0] [1, 0]
          combined_score := 0 * normalize_bm25_score 1 +
            (1 - 0) * ((cosine_similarity [1, 0] [1, 0] + 1) / 2) }] ++
       ((similarity_search c1Store [1, 0] 1).filter
         (fun p => ! (["a"] : List String).any (fun i => i == p.1.id))).map
         (fun p => { chunk := p.1
                     bm25_score := 0
                     semantic_score := p.2
                     combined_score := (1 - 0) * ((p.2 + 1) / 2) }))).take 1 = _
    rw [c1_sem]
    rw [show ([(c1Enh, (1 : ℝ))].filter
      (fun p => ! (["a"] : List String).any (fun i => i == p.1.id))) = [] from by
      simp [c1Enh]]
    rfl
  refine ⟨?_, ?_, ?_, ?_, by norm_num⟩
  · rw [hcode]
    rfl
  · rw [hclaim, cos_e1_e1]
    rfl
  · rw [hcode]
    show [0 * normalize_bm25_score 1 + (1 - 0) * ((0 + 1) / 2)] = [1 / 2]
    norm_num
  · rw [hclaim, cos_e1_e1]
    show [0 * normalize_bm25_score 1 + (1 - 0) * (((1 : ℝ) + 1) / 2)] = [1]
    norm_num

/-- Concrete instance for the C5 counterexample: two lexical candidates in
BM25 order `[a, b]` whose stored embeddings rank them `[b, a]`
semantically. -/
def c5ChunkA : Chunk := ⟨"a", "ta", "f.md", none, 0⟩

def c5ChunkB : Chunk := ⟨"b", "tb", "f.md", none, 1⟩

def c5EnhA : EnhancedChunk := ⟨"a", "ta", "f.md", none, 0, some [0, 1]⟩

def c5EnhB : EnhancedChunk := ⟨"b", "tb", "f.md", none, 1, some [1, 0]⟩

def c5Store : EmbeddingStore :=
  ⟨[("a", [0, 1]), ("b", [1, 0])], [("a", c5EnhA), ("b", c5EnhB)]⟩

def c5bm : String → ℕ → List Chunk := fun _ _ => [c5ChunkA, c5ChunkB]

def c5encode : String → List ℝ := fun _ => [1, 0]

theorem c5_sem : similarity_search c5Store [1, 0] 2 =
    [(c5EnhB, 1), (c5EnhA, 0)] := by
  show (sortPairsDesc [(c5EnhA, cosine_similarity [1, 0] [0, 1]),
    (c5EnhB, cosine_similarity [1, 0] [1, 0])]).take 2 = _
  rw [cos_e1_e2, cos_e1_e1]
  unfold sortPairsDesc
  rw [List.insertionSort, List.insertionSort, List.insertionSort,
    List.orderedInsert_nil, List.orderedInsert]
  rw [if_neg (by norm_num)]
  rfl

/-- C5 (counterexample): at α = 0, k = 2, the pure-semantic ranking of the
two lexical candidates is `[b, a]` (their stored-embedding cosine scores
are 1 and 0), but the fused ranking returns them in lexical order
`[a, b]`: every lexical candidate's code-computed combined score ties at
1/2, so the stable sort preserves BM25 order — the fused ordering does
not match the pure-semantic ordering. -/
theorem c5_counterexample :
    (similarity_search c5Store [1, 0] 2).map (fun q => q.1.id) = ["b", "a"] ∧
    (hybrid_search_with_alpha c5bm c5encode c5Store "q" 2 0).map
      (fun r => r.chunk.id) = ["a", "b"] ∧
    (["a", "b"] : List String) ≠ ["b", "a"] := by
  refine ⟨by rw [c5_sem]; rfl, ?_, by decide⟩
  have hhyb : hybrid_search_with_alpha c5bm c5encode c5Store "q" 2 0 =
      [{ chunk := enhancedOfChunk c5ChunkA
         bm25_score := 1
         semantic_score := 0
         combined_score := 0 * normalize_bm25_score 1 +
           (1 - 0) * ((0 + 1) / 2) },
       { chunk := enhancedOfChunk c5ChunkB
         bm25_score := 1
         semantic_score := 0
         combined_score := 0 * normalize_bm25_score 1 +
           (1 - 0) * ((0 + 1) / 2) }] := by
    show (sortResultsDesc ((similarity_search c5Store [1, 0] 2).foldl
      (fun acc p =>
        if acc.any (fun r => r.chunk.id == p.1.id) then acc
        else acc ++ [{ chunk := p.1
                       bm25_score := 0
                       semantic_score := p.2
                       combined_score := (1 - 0) * ((p.2 + 1) / 2) }])
      [{ chunk := enhancedOfChunk c5ChunkA
         bm25_score := 1
         semantic_score := 0
         combined_score := 0 * normalize_bm25_score 1 +
           (1 - 0) * ((0 + 1) / 2) },
       { chunk := enhancedOfChunk c5ChunkB
         bm25_score := 1
         semantic_score := 0
         combined_score := 0 * normalize_bm25_score 1 +
           (1 - 0) * ((0 + 1) / 2) }])).take 2 = _
    rw [c5_sem]
    simp only [List.foldl_cons, List.foldl_nil]
    rw [if_pos (by decide), if_pos (by decide)]
    unfold sortResultsDesc
    rw [List.insertionSort, List.insertionSort, List.insertionSort,
      List.orderedInsert_nil, List.orderedInsert]
    rw [if_pos (le_refl _)]
    rfl
  rw [hhyb]
  rfl

end BasicRag
